import Mathlib

/-!
# SRF05 distance measuring device (`main.c`)

A shallow embedding of `main.c`: the display encoder (`hex_encoder`,
`format_hex`), the polling loops and the conversion of `get_distance`, and
the extrema bookkeeping of the control loop in `main`.

Conventions of the embedding.

* A C `int` is an `ℤ`; where a result can leave the 32-bit range (the shifts
  and the sum at the end of `hex_encoder`) it is wrapped with `wrapInt`, and
  the conversion to `unsigned int` is `toUInt`.  C division `/` on `int`
  truncates toward zero: `Int.tdiv`.
* A finite `float` or `double` value is the rational number it denotes.  The
  result of a floating-point operation is the exact result passed through
  the rounding operator of the format, taken from a `FloatArith`.  Two
  instances are given: `ieee` (binary32 / binary64, round to nearest, ties
  to even, the arithmetic of the Nios II tool chain) and `exactArith` (no
  rounding).  NaN and infinities do not occur: every value comes from a
  finite counter reading.
* The cast `(int)x` of a float truncates toward zero (`castInt`) when the
  truncated value is a 32-bit `int`.  Outside that range the C cast is
  undefined; `castInt` then takes the value the x86-64 conversion delivers,
  `INT_MIN`.  Every distance `get_distance` can return is below
  `2 ^ 31 / 10`, so the program itself never leaves the range.
* Of the loop in `main` only the switch block writes the extrema; it is the
  function `main_switches` of the switch value, the measured distance and the
  extrema before.
* `get_distance` reads two devices.  It is a function of the successive
  values they deliver (finite lists) and returns the hardware accesses it
  makes, in order, with the distance; `none` means that the values delivered
  so far leave one of its busy-wait loops running.
-/

namespace DistanceDevice

/-! ## Machine integers -/

/-- Two's-complement wrap of an integer into the range of a 32-bit `int`. -/
def wrapInt (x : ℤ) : ℤ := (x + 2 ^ 31) % 2 ^ 32 - 2 ^ 31

/-- Conversion of an `int` to `unsigned int` (reduction modulo `2 ^ 32`). -/
def toUInt (x : ℤ) : ℕ := (x % 2 ^ 32).toNat

/-- The cast `(int)x` of a floating-point value to the 32-bit `int`:
truncation toward zero when the truncated value is an `int`.  Outside that
range the C cast is undefined; the value taken here is the one the x86-64
conversion delivers, `INT_MIN`. -/
def castInt (x : ℚ) : ℤ :=
  if -2147483649 < x ∧ x < 2147483648 then (if 0 ≤ x then ⌊x⌋ else ⌈x⌉) else -2147483648

/-- Byte lane `k` of a 32-bit word: bits `8k .. 8k+7`. -/
def lane (k : ℕ) (w : ℕ) : ℕ := w / 2 ^ (8 * k) % 256

/-! ## Floating-point arithmetic -/

/-- The rounding operators of the two floating-point formats the program
computes in: `single x` is the `float` and `double x` the `double` that an
operation with exact result `x` delivers. -/
structure FloatArith where
  single : ℚ → ℚ
  double : ℚ → ℚ

/-- A rounding operator never turns a non-negative result into a negative
one. -/
def FloatArith.SignPreserving (F : FloatArith) : Prop :=
  (∀ x : ℚ, 0 ≤ x → 0 ≤ F.single x) ∧ (∀ x : ℚ, 0 ≤ x → 0 ≤ F.double x)

/-- Arithmetic without rounding. -/
def exactArith : FloatArith := ⟨fun x => x, fun x => x⟩

/-- The power `2 ^ k` for an integer exponent. -/
def pow2 (k : ℤ) : ℚ := if 0 ≤ k then (2 : ℚ) ^ k.toNat else 1 / (2 : ℚ) ^ (-k).toNat

/-- Position of the leading bit of `n` (`0` for `n < 2`); the first argument
bounds the recursion. -/
def bitLog : ℕ → ℕ → ℕ
  | 0, _ => 0
  | fuel + 1, n => if n < 2 then 0 else bitLog fuel (n / 2) + 1

/-- The binary exponent `⌊log₂ |x|⌋` of a non-zero rational. -/
def ilog2 (x : ℚ) : ℤ :=
  let n := x.num.natAbs
  let d := x.den
  let a := bitLog n n
  let b := bitLog d d
  if d * 2 ^ a ≤ n * 2 ^ b then (a : ℤ) - b else (a : ℤ) - b - 1

/-- Nearest integer, ties to the even one. -/
def roundEven (t : ℚ) : ℤ :=
  let f := ⌊t⌋
  let r := t - f
  if r < 1 / 2 then f else if 1 / 2 < r then f + 1 else if f % 2 = 0 then f else f + 1

/-- Round to nearest, ties to even, into the binary format with `prec`
significand bits and least normal exponent `emin` (subnormals included,
overflow not modelled). -/
def rne (prec : ℕ) (emin : ℤ) (x : ℚ) : ℚ :=
  if x = 0 then 0 else
    let e := max (ilog2 x) emin
    let u := pow2 (e - prec + 1)
    roundEven (x / u) * u

/-- IEEE 754 arithmetic: `float` is binary32, `double` is binary64. -/
def ieee : FloatArith := ⟨rne 24 (-126), rne 53 (-1022)⟩

/-! ## `format_hex` -/

/-- The `switch` of `format_hex`: digit to 7-segment pattern. -/
def format_hex (digit : ℤ) : ℕ :=
  match digit with
  | 0 => 0xc0
  | 1 => 0xf9
  | 2 => 0xa4
  | 3 => 0xb0
  | 4 => 0x99
  | 5 => 0x92
  | 6 => 0x82
  | 7 => 0xf8
  | 8 => 0x80
  | 9 => 0x90
  | 191 => 0xBF
  | _ => 0xff

/-! ## `hex_encoder` -/

/-- The local `mmDistance` of `hex_encoder`: `int mmDistance = cmDistance * 10`. -/
def mmDistance (F : FloatArith) (cmDistance : ℚ) : ℤ := castInt (F.single (cmDistance * 10))

/-- The local `icmDistance` of `hex_encoder`: `(int)cmDistance`. -/
def icmDistance (cmDistance : ℚ) : ℤ := castInt cmDistance

/-- Value of `ssd0` before the lookup. -/
def ssd0 (cmDistance : ℚ) : ℤ :=
  if icmDistance cmDistance > 9 then 191
  else icmDistance cmDistance - (icmDistance cmDistance).tdiv 10 * 10

/-- Value of `ssd1` before the lookup. -/
def ssd1 (F : FloatArith) (cmDistance : ℚ) : ℤ :=
  mmDistance F cmDistance - (mmDistance F cmDistance).tdiv 10 * 10

/-- Value of `ssd2` before the lookup. -/
def ssd2 (F : FloatArith) (cmDistance : ℚ) : ℤ :=
  (mmDistance F cmDistance).tdiv 10 - (mmDistance F cmDistance).tdiv 100 * 10

/-- Value of `ssd3` before the lookup. -/
def ssd3 (F : FloatArith) (cmDistance : ℚ) : ℤ :=
  (mmDistance F cmDistance).tdiv 100 - (mmDistance F cmDistance).tdiv 1000 * 10

/-- The tail of `hex_encoder`: lookup of the four digits, the three shifts
and the sum, all on `int`, returned as `unsigned int`. -/
def pack (d0 d1 d2 d3 : ℤ) : ℕ :=
  let s0 : ℤ := wrapInt (format_hex d0)
  let s1 : ℤ := wrapInt (format_hex d1)
  let s2 : ℤ := wrapInt (format_hex d2)
  let s3 : ℤ := wrapInt (format_hex d3)
  let s1 := wrapInt (s1 * 2 ^ 8)
  let s2 := wrapInt (s2 * 2 ^ 16)
  let s3 := wrapInt (s3 * 2 ^ 24)
  toUInt (wrapInt (wrapInt (wrapInt (s0 + s1) + s2) + s3))

/-- The display encoder `hex_encoder`. -/
def hex_encoder (F : FloatArith) (cmDistance : ℚ) : ℕ :=
  pack (ssd0 cmDistance) (ssd1 F cmDistance) (ssd2 F cmDistance) (ssd3 F cmDistance)

/-! ## The conversion in `get_distance` -/

/-- The C library function `roundf`: the nearest integer, halfway cases away
from zero. -/
def roundf (x : ℚ) : ℚ := if 0 ≤ x then ⌊x + 1 / 2⌋ else ⌈x - 1 / 2⌉

/-- The `return` statement of `get_distance` for the counter reading
`cycles`: `roundf((0.00034029 * cycles)*10.0f)/10.0f`.  The literal and the
two products are `double`, the argument of `roundf` is converted to `float`,
and the quotient is a `float` division. -/
def get_distance_convert (F : FloatArith) (cycles : ℕ) : ℚ :=
  let k := F.double (34029 / 100000000)
  let p := F.double (k * cycles)
  let q := F.double (p * 10)
  let a := F.single q
  F.single (roundf a / 10)

/-! ## The composition of conversion and encoder -/

/-- What the composition claim says of an encoded distance `d` and a count of
tenths `r`: the millimetre value computed in `hex_encoder` is `r`, lanes 1 to
3 hold the patterns of the three low decimal digits of `r`, and lane 0 holds
the pattern of `r / 10` when `r < 100` and the sentinel pattern otherwise. -/
def ShowsTenths (F : FloatArith) (d : ℚ) (r : ℤ) : Prop :=
  mmDistance F d = r ∧
    lane 1 (hex_encoder F d) = format_hex (r % 10) ∧
    lane 2 (hex_encoder F d) = format_hex (r / 10 % 10) ∧
    lane 3 (hex_encoder F d) = format_hex (r / 100 % 10) ∧
    (r < 100 → lane 0 (hex_encoder F d) = format_hex (r / 10)) ∧
    (100 ≤ r → lane 0 (hex_encoder F d) = 0xBF)

/-! ## The polling loops of `get_distance` -/

/-- The hardware accesses of `get_distance`, in program order: the two writes
to the header output registers, `usleep`, `alt_timestamp_start`, a call of
`alt_timestamp` with the value stored in `cycles`, and a read of the header
inputs with the value read. -/
inductive Access
  | clearHeaderOuts
  | usleep (us : ℕ)
  | setHeaderOuts
  | alt_timestamp_start
  | alt_timestamp (cycles : ℕ)
  | headerInputs (input : ℕ)
  deriving DecidableEq

/-- The loop `do { x = read(); } while (c x);` run on the successive values
the read delivers: the values read up to and including the one that ends the
loop, and the values not yet read; `none` when every value delivered so far
keeps the loop running. -/
def do_while (c : ℕ → Bool) : List ℕ → Option (List ℕ × List ℕ)
  | [] => none
  | x :: xs =>
    if c x then
      match do_while c xs with
      | some (r, rest) => some (x :: r, rest)
      | none => none
    else some ([x], xs)

/-- The function `get_distance` on the successive values of `alt_timestamp()`
(as stored in the `unsigned int cycles`) and of the header inputs: the
accesses made, in order, and the distance returned; `none` when the values
delivered so far leave one of the loops running.  Bit 0 of the `char input`
is the parity of the value read. -/
def get_distance (F : FloatArith) (timer echo : List ℕ) : Option (List Access × ℚ) :=
  match do_while (fun cycles => cycles < 501) timer with
  | none => none
  | some (pulse, timer1) =>
    match do_while (fun input => input % 2 = 0) echo with
    | none => none
    | some (wait, echo1) =>
      match do_while (fun input => input % 2 = 1) echo1 with
      | none => none
      | some (high, _) =>
        match timer1 with
        | [] => none
        | cycles :: _ =>
          some ([Access.clearHeaderOuts, Access.usleep 50000, Access.setHeaderOuts,
                Access.alt_timestamp_start]
              ++ pulse.map Access.alt_timestamp ++ [Access.clearHeaderOuts]
              ++ wait.map Access.headerInputs ++ [Access.alt_timestamp_start]
              ++ high.map Access.headerInputs ++ [Access.alt_timestamp cycles],
            get_distance_convert F cycles)

/-! ## The extrema in `main` -/

/-- The two extrema variables of `main`. -/
structure Extrema where
  max_cmDistance : ℚ
  min_cmDistance : ℚ
  deriving DecidableEq

/-- Initial values of the extrema in `main`. -/
def main_init : Extrema := ⟨0, 400⟩

/-- The switch block of one iteration of the loop in `main` (the only place
that writes the extrema), for the value read from the switches and the
distance just measured. -/
def main_switches (switches : ℕ) (cmDistance : ℚ) (s : Extrema) : Extrema :=
  if switches > 0 then
    if switches = 1 then
      if cmDistance > s.max_cmDistance then { s with max_cmDistance := cmDistance }
      else if cmDistance < s.min_cmDistance then { s with min_cmDistance := cmDistance }
      else s
    else if switches = 2 then { max_cmDistance := 0, min_cmDistance := 400 }
    else s
  else s

/-- The extrema after a run of iterations that all read `1` from the
switches, one measured distance per iteration. -/
def accumulate (readings : List ℚ) (s : Extrema) : Extrema :=
  readings.foldl (fun t d => main_switches 1 d t) s

/-! ## Lemmas

### Machine arithmetic and the display encoder -/

theorem pow2_pos (k : ℤ) : 0 < pow2 k := by
  unfold pow2
  split <;> positivity

theorem roundEven_nonneg {t : ℚ} (ht : 0 ≤ t) : 0 ≤ roundEven t := by
  have hf : (0 : ℤ) ≤ ⌊t⌋ := Int.floor_nonneg.mpr ht
  unfold roundEven
  simp only
  split_ifs <;> omega

theorem rne_nonneg (prec : ℕ) (emin : ℤ) {x : ℚ} (hx : 0 ≤ x) : 0 ≤ rne prec emin x := by
  unfold rne
  split_ifs with h0
  · exact le_refl 0
  · have hu := pow2_pos (max (ilog2 x) emin - prec + 1)
    have hq : 0 ≤ x / pow2 (max (ilog2 x) emin - prec + 1) := div_nonneg hx hu.le
    have hr := roundEven_nonneg hq
    have hc : (0 : ℚ) ≤ (roundEven (x / pow2 (max (ilog2 x) emin - prec + 1)) : ℚ) := by
      exact_mod_cast hr
    exact mul_nonneg hc hu.le

theorem ieee_signPreserving : ieee.SignPreserving :=
  ⟨fun _ hx => rne_nonneg 24 (-126) hx, fun _ hx => rne_nonneg 53 (-1022) hx⟩

theorem exactArith_signPreserving : exactArith.SignPreserving :=
  ⟨fun _ hx => hx, fun _ hx => hx⟩

theorem format_hex_le (n : ℤ) : format_hex n ≤ 255 := by
  unfold format_hex
  split <;> decide

theorem wrapInt_id {x : ℤ} (h1 : -2147483648 ≤ x) (h2 : x < 2147483648) : wrapInt x = x := by
  unfold wrapInt
  omega

theorem toUInt_wrapInt (x : ℤ) : toUInt (wrapInt x) = toUInt x := by
  unfold toUInt wrapInt
  congr 1
  omega

theorem toUInt_add_wrapInt (x y : ℤ) : toUInt (x + wrapInt y) = toUInt (x + y) := by
  unfold toUInt wrapInt
  congr 1
  omega

theorem toUInt_id {x : ℤ} (h1 : 0 ≤ x) (h2 : x < 4294967296) : toUInt x = x.toNat := by
  unfold toUInt
  congr 1
  omega

theorem pack_arith (a b c e : ℕ) (ha : a ≤ 255) (hb : b ≤ 255) (hc : c ≤ 255) (he : e ≤ 255) :
    toUInt (wrapInt (wrapInt (wrapInt (wrapInt (a : ℤ) + wrapInt (wrapInt (b : ℤ) * 2 ^ 8))
      + wrapInt (wrapInt (c : ℤ) * 2 ^ 16)) + wrapInt (wrapInt (e : ℤ) * 2 ^ 24)))
      = a + b * 2 ^ 8 + c * 2 ^ 16 + e * 2 ^ 24 := by
  rw [wrapInt_id (x := (a : ℤ)) (by omega) (by omega),
    wrapInt_id (x := (b : ℤ)) (by omega) (by omega),
    wrapInt_id (x := (c : ℤ)) (by omega) (by omega),
    wrapInt_id (x := (e : ℤ)) (by omega) (by omega)]
  rw [wrapInt_id (x := (b : ℤ) * 2 ^ 8) (by omega) (by omega),
    wrapInt_id (x := (c : ℤ) * 2 ^ 16) (by omega) (by omega)]
  rw [wrapInt_id (x := (a : ℤ) + (b : ℤ) * 2 ^ 8) (by omega) (by omega)]
  rw [wrapInt_id (x := (a : ℤ) + (b : ℤ) * 2 ^ 8 + (c : ℤ) * 2 ^ 16) (by omega) (by omega)]
  rw [toUInt_wrapInt, toUInt_add_wrapInt, toUInt_id (by omega) (by omega)]
  omega

theorem lane_arith (a b c e : ℕ) (ha : a ≤ 255) (hb : b ≤ 255) (hc : c ≤ 255) (he : e ≤ 255) :
    lane 0 (a + b * 2 ^ 8 + c * 2 ^ 16 + e * 2 ^ 24) = a ∧
    lane 1 (a + b * 2 ^ 8 + c * 2 ^ 16 + e * 2 ^ 24) = b ∧
    lane 2 (a + b * 2 ^ 8 + c * 2 ^ 16 + e * 2 ^ 24) = c ∧
    lane 3 (a + b * 2 ^ 8 + c * 2 ^ 16 + e * 2 ^ 24) = e := by
  unfold lane
  refine ⟨?_, ?_, ?_, ?_⟩ <;> omega

theorem pack_eq (d0 d1 d2 d3 : ℤ) :
    pack d0 d1 d2 d3
      = format_hex d0 + format_hex d1 * 2 ^ 8 + format_hex d2 * 2 ^ 16 + format_hex d3 * 2 ^ 24 :=
  pack_arith _ _ _ _ (format_hex_le d0) (format_hex_le d1) (format_hex_le d2) (format_hex_le d3)

theorem lane_pack (d0 d1 d2 d3 : ℤ) :
    lane 0 (pack d0 d1 d2 d3) = format_hex d0 ∧ lane 1 (pack d0 d1 d2 d3) = format_hex d1 ∧
      lane 2 (pack d0 d1 d2 d3) = format_hex d2 ∧ lane 3 (pack d0 d1 d2 d3) = format_hex d3 := by
  rw [pack_eq]
  exact lane_arith _ _ _ _ (format_hex_le d0) (format_hex_le d1) (format_hex_le d2)
    (format_hex_le d3)

theorem two_pow_31 : (2 : ℚ) ^ 31 = 2147483648 := by norm_num

theorem castInt_of_nonneg {x : ℚ} (hx : 0 ≤ x) (hlt : x < 2147483648) : castInt x = ⌊x⌋ := by
  unfold castInt
  rw [if_pos ⟨by linarith, hlt⟩, if_pos hx]

theorem castInt_nonneg {x : ℚ} (hx : 0 ≤ x) (hlt : x < 2147483648) : 0 ≤ castInt x := by
  rw [castInt_of_nonneg hx hlt]
  exact Int.floor_nonneg.mpr hx

theorem castInt_overflow {x : ℚ} (hx : 2147483648 ≤ x) : castInt x = -2147483648 := by
  unfold castInt
  rw [if_neg (fun h => absurd h.2 (not_lt.mpr hx))]

theorem castInt_range (x : ℚ) : -2147483648 ≤ castInt x ∧ castInt x ≤ 2147483647 := by
  unfold castInt
  split_ifs with h h0
  · obtain ⟨h1, h2⟩ := h
    have a1 : (0 : ℤ) ≤ ⌊x⌋ := Int.floor_nonneg.mpr h0
    have a2 : ⌊x⌋ < 2147483648 := Int.floor_lt.mpr (by push_cast; linarith)
    omega
  · obtain ⟨h1, h2⟩ := h
    have a1 : ⌈x⌉ ≤ 0 := Int.ceil_le.mpr (by push_cast; linarith)
    have a2 : -2147483649 < ⌈x⌉ := Int.lt_ceil.mpr (by push_cast; linarith)
    omega
  · omega

theorem mmDistance_nonneg {F : FloatArith} (hF : F.SignPreserving) {d : ℚ} (hd : 0 ≤ d)
    (hlt : F.single (d * 10) < 2147483648) : 0 ≤ mmDistance F d :=
  castInt_nonneg (hF.1 _ (mul_nonneg hd (by norm_num))) hlt

theorem mmDistance_eq_floor {F : FloatArith} (hF : F.SignPreserving) {d : ℚ} (hd : 0 ≤ d)
    (hlt : F.single (d * 10) < 2147483648) : mmDistance F d = ⌊F.single (d * 10)⌋ :=
  castInt_of_nonneg (hF.1 _ (mul_nonneg hd (by norm_num))) hlt

theorem tdiv_digit_ne_sentinel (m : ℤ) : m.tdiv 10 - m.tdiv 100 * 10 ≠ 191 := by
  rcases le_or_lt 0 m with h | h
  · rw [Int.tdiv_eq_ediv h (by norm_num), Int.tdiv_eq_ediv h (by norm_num)]
    omega
  · obtain ⟨k, hk, rfl⟩ : ∃ k : ℤ, 0 ≤ k ∧ m = -k := ⟨-m, by omega, by omega⟩
    rw [Int.neg_tdiv, Int.neg_tdiv, Int.tdiv_eq_ediv hk (by norm_num),
      Int.tdiv_eq_ediv hk (by norm_num)]
    omega

theorem digits_of_nonneg {m : ℤ} (hm : 0 ≤ m) :
    m - m.tdiv 10 * 10 = m % 10 ∧ m.tdiv 10 - m.tdiv 100 * 10 = m / 10 % 10 ∧
      m.tdiv 100 - m.tdiv 1000 * 10 = m / 100 % 10 := by
  rw [Int.tdiv_eq_ediv hm (by norm_num), Int.tdiv_eq_ediv hm (by norm_num),
    Int.tdiv_eq_ediv hm (by norm_num)]
  refine ⟨?_, ?_, ?_⟩ <;> omega

theorem icmDistance_eq_floor {d : ℚ} (hd : 0 ≤ d) (hlt : d < 2147483648) :
    icmDistance d = ⌊d⌋ :=
  castInt_of_nonneg hd hlt

theorem format_hex_sentinel_only {n : ℤ} (h : format_hex n = 0xBF) : n = 191 := by
  unfold format_hex at h
  split at h <;> first | rfl | (exfalso; revert h; decide)

theorem format_hex_ne_blank {n : ℤ} (h : (0 ≤ n ∧ n ≤ 9) ∨ n = 191) : format_hex n ≠ 0xFF := by
  rcases h with ⟨h0, h9⟩ | rfl
  · interval_cases n <;> decide
  · decide

theorem ssd0_range {d : ℚ} (hd : 0 ≤ d) (hlt : d < 2147483648) :
    (0 ≤ ssd0 d ∧ ssd0 d ≤ 9) ∨ ssd0 d = 191 := by
  have hf : (0 : ℤ) ≤ ⌊d⌋ := Int.floor_nonneg.mpr hd
  unfold ssd0
  rw [icmDistance_eq_floor hd hlt]
  split_ifs with h
  · exact Or.inr rfl
  · left
    rw [Int.tdiv_eq_ediv hf (by norm_num)]
    omega

theorem ssd0_of_ten_le {d : ℚ} (h10 : 10 ≤ d) (hlt : d < 2147483648) : ssd0 d = 191 := by
  have h0 : (0 : ℚ) ≤ d := by linarith
  have hf : (10 : ℤ) ≤ ⌊d⌋ := Int.le_floor.mpr (by push_cast; linarith)
  unfold ssd0
  rw [icmDistance_eq_floor h0 hlt, if_pos (by omega)]

theorem ssd0_of_lt_ten {d : ℚ} (h0 : 0 ≤ d) (h10 : d < 10) : ssd0 d = ⌊d⌋ := by
  have hf0 : (0 : ℤ) ≤ ⌊d⌋ := Int.floor_nonneg.mpr h0
  have hf9 : ⌊d⌋ < 10 := Int.floor_lt.mpr (by push_cast; linarith)
  unfold ssd0
  rw [icmDistance_eq_floor h0 (by linarith), if_neg (by omega),
    Int.tdiv_eq_ediv hf0 (by norm_num)]
  omega

theorem floor_mul_ten_div (d : ℚ) : ⌊d * 10⌋ / 10 = ⌊d⌋ := by
  have h1 : (10 : ℤ) * ⌊d⌋ ≤ ⌊d * 10⌋ := by
    apply Int.le_floor.mpr
    have := Int.floor_le d
    push_cast
    linarith
  have h2 : ⌊d * 10⌋ < 10 * ⌊d⌋ + 10 := by
    apply Int.floor_lt.mpr
    have := Int.lt_floor_add_one d
    push_cast
    linarith
  omega

theorem mmDistance_exact {d : ℚ} (hd : 0 ≤ d) (hlt : d * 10 < 2147483648) :
    mmDistance exactArith d = ⌊d * 10⌋ :=
  castInt_of_nonneg (mul_nonneg hd (by norm_num)) hlt

theorem do_while_eq_none_iff (c : ℕ → Bool) (l : List ℕ) :
    do_while c l = none ↔ ∀ v ∈ l, c v = true := by
  induction l with
  | nil => simp [do_while]
  | cons x xs ih =>
    unfold do_while
    by_cases hx : c x = true
    · rw [if_pos hx]
      cases h : do_while c xs with
      | none =>
        have hall := ih.mp h
        refine ⟨fun _ v hv => ?_, fun _ => rfl⟩
        rcases List.mem_cons.mp hv with rfl | hv
        · exact hx
        · exact hall v hv
      | some r =>
        obtain ⟨r1, r2⟩ := r
        refine ⟨fun hc => (by cases hc), fun hall => ?_⟩
        rw [ih.mpr (fun v hv => hall v (List.mem_cons_of_mem x hv))] at h
        cases h
    · rw [if_neg hx]
      simp [hx]

theorem do_while_append (c : ℕ → Bool) (pre : List ℕ) (x : ℕ) (rest : List ℕ)
    (hpre : ∀ v ∈ pre, c v = true) (hx : c x = false) :
    do_while c (pre ++ x :: rest) = some (pre ++ [x], rest) := by
  induction pre with
  | nil => simp [do_while, hx]
  | cons p ps ih =>
    have hp : c p = true := hpre p (List.mem_cons_self p ps)
    have ih := ih (fun v hv => hpre v (List.mem_cons_of_mem p hv))
    show do_while c (p :: (ps ++ x :: rest)) = _
    unfold do_while
    rw [if_pos hp, ih]
    rfl

theorem do_while_some (c : ℕ → Bool) (l r rest : List ℕ) (h : do_while c l = some (r, rest)) :
    ∃ pre x, r = pre ++ [x] ∧ l = pre ++ x :: rest ∧ (∀ v ∈ pre, c v = true) ∧ c x = false := by
  induction l generalizing r with
  | nil => simp [do_while] at h
  | cons y ys ih =>
    unfold do_while at h
    by_cases hy : c y = true
    · rw [if_pos hy] at h
      cases h2 : do_while c ys with
      | none => rw [h2] at h; cases h
      | some q =>
        obtain ⟨r1, rest1⟩ := q
        rw [h2] at h
        simp only [Option.some.injEq, Prod.mk.injEq] at h
        obtain ⟨hr, hrest⟩ := h
        obtain ⟨pre, x, e1, e2, e3, e4⟩ := ih r1 (by rw [h2, hrest])
        refine ⟨y :: pre, x, by rw [← hr, e1]; rfl, by rw [e2]; rfl, ?_, e4⟩
        intro v hv
        rcases List.mem_cons.mp hv with rfl | hv
        · exact hy
        · exact e3 v hv
    · rw [if_neg hy] at h
      simp only [Option.some.injEq, Prod.mk.injEq] at h
      obtain ⟨hr, hrest⟩ := h
      refine ⟨[], y, by rw [← hr]; rfl, by rw [hrest]; rfl, by simp, by simpa using hy⟩

theorem get_distance_some (F : FloatArith) (timer echo : List ℕ) (tr : List Access) (d : ℚ)
    (h : get_distance F timer echo = some (tr, d)) :
    ∃ pulse cycles timer2 wait echo1 high echo2,
      do_while (fun cycles => cycles < 501) timer = some (pulse, cycles :: timer2) ∧
      do_while (fun input => input % 2 = 0) echo = some (wait, echo1) ∧
      do_while (fun input => input % 2 = 1) echo1 = some (high, echo2) ∧
      tr = [Access.clearHeaderOuts, Access.usleep 50000, Access.setHeaderOuts,
              Access.alt_timestamp_start]
            ++ pulse.map Access.alt_timestamp ++ [Access.clearHeaderOuts]
            ++ wait.map Access.headerInputs ++ [Access.alt_timestamp_start]
            ++ high.map Access.headerInputs ++ [Access.alt_timestamp cycles] ∧
      d = get_distance_convert F cycles := by
  unfold get_distance at h
  split at h
  · cases h
  · rename_i pulse timer1 h1
    split at h
    · cases h
    · rename_i wait echo1 h2
      split at h
      · cases h
      · rename_i high echo2 h3
        split at h
        · cases h
        · rename_i cycles timer2
          simp only [Option.some.injEq, Prod.mk.injEq] at h
          exact ⟨pulse, cycles, timer2, wait, echo1, high, echo2, h1, h2, h3, h.1.symm, h.2.symm⟩

theorem get_distance_of_shape (F : FloatArith) (pre : List ℕ) (t cycles : ℕ) (rest zs : List ℕ)
    (x : ℕ) (hs : List ℕ) (y : ℕ) (rest2 : List ℕ) (hpre : ∀ v ∈ pre, v < 501) (ht : 501 ≤ t)
    (hzs : ∀ v ∈ zs, v % 2 = 0) (hx : x % 2 = 1) (hhs : ∀ v ∈ hs, v % 2 = 1) (hy : y % 2 = 0) :
    get_distance F (pre ++ t :: cycles :: rest) (zs ++ x :: (hs ++ y :: rest2))
      = some ([Access.clearHeaderOuts, Access.usleep 50000, Access.setHeaderOuts,
              Access.alt_timestamp_start]
            ++ (pre ++ [t]).map Access.alt_timestamp ++ [Access.clearHeaderOuts]
            ++ (zs ++ [x]).map Access.headerInputs ++ [Access.alt_timestamp_start]
            ++ (hs ++ [y]).map Access.headerInputs ++ [Access.alt_timestamp cycles],
          get_distance_convert F cycles) := by
  have h1 := do_while_append (fun cycles => cycles < 501) pre t (cycles :: rest)
    (fun v hv => by simpa using hpre v hv) (by simp; omega)
  have h2 := do_while_append (fun input => input % 2 = 0) zs x (hs ++ y :: rest2)
    (fun v hv => by simpa using hzs v hv) (by simp; omega)
  have h3 := do_while_append (fun input => input % 2 = 1) hs y rest2
    (fun v hv => by simpa using hhs v hv) (by simp; omega)
  unfold get_distance
  rw [h1, h2]
  simp only []
  rw [h3]

/-! ### The extrema -/

theorem main_switches_one_max (d : ℚ) (s : Extrema) :
    (main_switches 1 d s).max_cmDistance = max s.max_cmDistance d := by
  unfold main_switches
  by_cases h : d > s.max_cmDistance
  · simp [h, max_eq_right h.le]
  · have hle : d ≤ s.max_cmDistance := not_lt.mp h
    by_cases h2 : d < s.min_cmDistance <;> simp [h, h2, max_eq_left hle]

theorem accumulate_max (readings : List ℚ) (s : Extrema) :
    (accumulate readings s).max_cmDistance = readings.foldl max s.max_cmDistance := by
  induction readings generalizing s with
  | nil => rfl
  | cons d l ih =>
    show (accumulate l (main_switches 1 d s)).max_cmDistance = _
    rw [ih, main_switches_one_max]
    rfl

theorem foldl_max_init_le (l : List ℚ) (a : ℚ) : a ≤ l.foldl max a := by
  induction l generalizing a with
  | nil => exact le_refl a
  | cons d l ih => exact le_trans (le_max_left a d) (ih (max a d))

theorem foldl_max_mem_le (l : List ℚ) (a : ℚ) : ∀ d ∈ l, d ≤ l.foldl max a := by
  induction l generalizing a with
  | nil => intro d hd; cases hd
  | cons x l ih =>
    intro d hd
    rcases List.mem_cons.mp hd with rfl | hd
    · exact le_trans (le_max_right a d) (foldl_max_init_le l (max a d))
    · exact ih (max a x) d hd

theorem foldl_max_attained (l : List ℚ) (a : ℚ) : l.foldl max a = a ∨ l.foldl max a ∈ l := by
  induction l generalizing a with
  | nil => exact Or.inl rfl
  | cons x l ih =>
    rcases ih (max a x) with h | h
    · rcases max_choice a x with hm | hm
      · exact Or.inl (by rw [List.foldl_cons, h, hm])
      · exact Or.inr (by rw [List.foldl_cons, h, hm]; exact List.mem_cons_self x l)
    · exact Or.inr (List.mem_cons_of_mem x h)

/-! ### The rounding operator `rne` -/

theorem pow2_eq_zpow (k : ℤ) : pow2 k = (2 : ℚ) ^ k := by
  unfold pow2
  split_ifs with h
  · conv_rhs => rw [← Int.toNat_of_nonneg h]
    rw [zpow_natCast]
  · have hk : 0 ≤ -k := by omega
    have : (2 : ℚ) ^ k = ((2 : ℚ) ^ (-k))⁻¹ := by rw [zpow_neg, inv_inv]
    rw [this, one_div]
    conv_rhs => rw [← Int.toNat_of_nonneg hk]
    rw [zpow_natCast]

theorem bitLog_spec (fuel n : ℕ) (hf : n ≤ fuel) (hn : 1 ≤ n) :
    2 ^ bitLog fuel n ≤ n ∧ n < 2 ^ (bitLog fuel n + 1) := by
  induction fuel generalizing n with
  | zero => omega
  | succ fuel ih =>
    unfold bitLog
    split_ifs with h2
    · simp; omega
    · obtain ⟨h1, h3⟩ := ih (n / 2) (by omega) (by omega)
      rw [pow_succ, pow_succ]
      rw [pow_succ] at h3
      constructor <;> omega

theorem ilog2_spec {x : ℚ} (hx : x ≠ 0) : pow2 (ilog2 x) ≤ |x| ∧ |x| < pow2 (ilog2 x + 1) := by
  have hnum : x.num ≠ 0 := Rat.num_ne_zero.mpr hx
  have hn : 1 ≤ x.num.natAbs := Int.natAbs_pos.mpr hnum
  have hd : 1 ≤ x.den := x.den_pos
  obtain ⟨a1, a2⟩ := bitLog_spec x.num.natAbs x.num.natAbs (le_refl _) hn
  obtain ⟨b1, b2⟩ := bitLog_spec x.den x.den (le_refl _) hd
  have hdq : (0 : ℚ) < x.den := by exact_mod_cast hd
  have habs : |x| = (x.num.natAbs : ℚ) / (x.den : ℚ) := by
    have hc : (x.num.natAbs : ℚ) = |(x.num : ℚ)| := by rw [Nat.cast_natAbs, Int.cast_abs]
    conv_lhs => rw [← Rat.num_div_den x]
    rw [abs_div, Nat.abs_cast, hc]
  set n := x.num.natAbs with hndef
  set d := x.den with hddef
  set a := bitLog n n with hadef
  set b := bitLog d d with hbdef
  have a1q : ((2 : ℚ) ^ a) ≤ n := by exact_mod_cast a1
  have a2q : (n : ℚ) < (2 : ℚ) ^ (a + 1) := by exact_mod_cast a2
  have b1q : ((2 : ℚ) ^ b) ≤ d := by exact_mod_cast b1
  have b2q : (d : ℚ) < (2 : ℚ) ^ (b + 1) := by exact_mod_cast b2
  have hpa : (0 : ℚ) < 2 ^ a := by positivity
  have hpb : (0 : ℚ) < 2 ^ b := by positivity
  have e1 : pow2 ((a : ℤ) - b) = (2 : ℚ) ^ a / (2 : ℚ) ^ b := by
    rw [pow2_eq_zpow, zpow_sub₀ (by norm_num), zpow_natCast, zpow_natCast]
  have e2 : pow2 ((a : ℤ) - b + 1) = 2 * ((2 : ℚ) ^ a / (2 : ℚ) ^ b) := by
    rw [pow2_eq_zpow, zpow_add_one₀ (by norm_num), ← pow2_eq_zpow, e1]; ring
  have e3 : pow2 ((a : ℤ) - b - 1) = ((2 : ℚ) ^ a / (2 : ℚ) ^ b) / 2 := by
    rw [pow2_eq_zpow, zpow_sub_one₀ (by norm_num), ← pow2_eq_zpow, e1]; ring
  have e4 : pow2 ((a : ℤ) - b - 1 + 1) = (2 : ℚ) ^ a / (2 : ℚ) ^ b := by
    rw [sub_add_cancel, e1]
  rw [habs]
  have hil : ilog2 x = if d * 2 ^ a ≤ n * 2 ^ b then (a : ℤ) - b else (a : ℤ) - b - 1 := rfl
  rw [hil]
  split_ifs with ht
  · rw [e1, e2]
    have htq : (d : ℚ) * 2 ^ a ≤ n * 2 ^ b := by exact_mod_cast ht
    constructor
    · rw [div_le_div_iff₀ hpb hdq]
      linarith
    · rw [← mul_div_assoc, div_lt_div_iff₀ hdq hpb]
      have : (n : ℚ) * 2 ^ b < 2 ^ (a + 1) * 2 ^ b := by
        exact mul_lt_mul_of_pos_right a2q hpb
      have h5 : (2 : ℚ) ^ (a + 1) * 2 ^ b ≤ 2 * 2 ^ a * d := by
        rw [pow_succ]
        nlinarith
      linarith
  · rw [e3, e4]
    have htq : (n : ℚ) * 2 ^ b < d * 2 ^ a := by
      have := not_le.mp ht
      exact_mod_cast this
    constructor
    · rw [div_div, div_le_div_iff₀ (by positivity) hdq]
      have h5 : (2 : ℚ) ^ a * d ≤ n * 2 ^ (b + 1) := by
        have := mul_le_mul a1q b2q.le (by positivity) (by positivity)
        linarith
      rw [pow_succ] at h5
      linarith
    · rw [div_lt_div_iff₀ hdq hpb]
      linarith

theorem roundEven_near (t : ℚ) : |(roundEven t : ℚ) - t| ≤ 1 / 2 := by
  have h1 := Int.floor_le t
  have h2 := Int.lt_floor_add_one t
  unfold roundEven
  simp only
  rw [abs_le]
  split_ifs with c1 c2 c3 <;> push_cast <;> constructor <;> linarith

theorem rne_near (prec : ℕ) (emin : ℤ) (x : ℚ) :
    |rne prec emin x - x| ≤ pow2 (max (ilog2 x) emin - prec + 1) / 2 := by
  have hp : ∀ k : ℤ, 0 < pow2 k := fun k => by rw [pow2_eq_zpow]; positivity
  have hu := hp (max (ilog2 x) emin - prec + 1)
  unfold rne
  split_ifs with h0
  · rw [h0, sub_zero, abs_zero]
    exact (half_pos (hp _)).le
  · simp only
    set u := pow2 (max (ilog2 x) emin - prec + 1) with hudef
    have h := roundEven_near (x / u)
    have : (roundEven (x / u) : ℚ) * u - x = ((roundEven (x / u) : ℚ) - x / u) * u := by
      field_simp
    rw [this, abs_mul, abs_of_pos hu]
    calc |(roundEven (x / u) : ℚ) - x / u| * u ≤ 1 / 2 * u :=
          mul_le_mul_of_nonneg_right h hu.le
      _ = u / 2 := by ring

theorem pow2_mono {m n : ℤ} (h : m ≤ n) : pow2 m ≤ pow2 n := by
  rw [pow2_eq_zpow, pow2_eq_zpow]
  exact zpow_le_zpow_right₀ (by norm_num) h

theorem rne_rel (prec : ℕ) (emin : ℤ) {x : ℚ} (hx : pow2 emin ≤ |x|) :
    |rne prec emin x - x| ≤ |x| / 2 ^ prec := by
  have hx0 : x ≠ 0 := by
    intro h
    rw [h, abs_zero] at hx
    exact absurd hx (not_le.mpr (pow2_pos emin))
  obtain ⟨s1, s2⟩ := ilog2_spec hx0
  have he : emin ≤ ilog2 x := by
    by_contra hc
    have h1 : ilog2 x + 1 ≤ emin := by omega
    have := pow2_mono h1
    linarith
  have hn := rne_near prec emin x
  rw [max_eq_left he] at hn
  have hp : pow2 (ilog2 x - prec + 1) = pow2 (ilog2 x) * 2 / 2 ^ prec := by
    rw [pow2_eq_zpow, pow2_eq_zpow, zpow_add_one₀ (by norm_num), zpow_sub₀ (by norm_num),
      zpow_natCast]
    ring
  rw [hp] at hn
  have h2 : (0 : ℚ) < 2 ^ prec := by positivity
  calc |rne prec emin x - x| ≤ pow2 (ilog2 x) * 2 / 2 ^ prec / 2 := hn
    _ = pow2 (ilog2 x) / 2 ^ prec := by ring
    _ ≤ |x| / 2 ^ prec := div_le_div_of_nonneg_right s1 h2.le

/-- One rounding step in a chain of positive quantities bounded by multiples of `w`. -/
theorem rel_step (prec : ℕ) (emin : ℤ) {x w M L : ℚ} (hL : pow2 emin ≤ L) (hLx : L ≤ x)
    (hxw : x ≤ w * M) :
    |rne prec emin x - x| ≤ w * (M / 2 ^ prec) ∧ rne prec emin x ≤ w * (M * (1 + 1 / 2 ^ prec)) ∧
      L * (1 - 1 / 2 ^ prec) ≤ rne prec emin x := by
  have hx0 : 0 < x := lt_of_lt_of_le (pow2_pos emin) (le_trans hL hLx)
  have h2 : (0 : ℚ) < 2 ^ prec := by positivity
  have h21 : (1 : ℚ) ≤ 2 ^ prec := one_le_pow₀ (by norm_num)
  have hr := rne_rel prec emin (x := x) (by rw [abs_of_pos hx0]; exact le_trans hL hLx)
  rw [abs_of_pos hx0] at hr
  have hb : x / 2 ^ prec ≤ w * (M / 2 ^ prec) := by
    rw [← mul_div_assoc]
    exact div_le_div_of_nonneg_right hxw h2.le
  have hlow : L / 2 ^ prec ≤ x / 2 ^ prec := div_le_div_of_nonneg_right hLx h2.le
  have hxL : x / 2 ^ prec ≤ x := div_le_self hx0.le h21
  obtain ⟨l, u⟩ := abs_le.mp hr
  refine ⟨le_trans hr hb, ?_, ?_⟩
  · have : w * (M * (1 + 1 / 2 ^ prec)) = w * M + w * (M / 2 ^ prec) := by ring
    rw [this]; linarith
  · have e : L * (1 - 1 / 2 ^ prec) = L - L / 2 ^ prec := by ring
    have hmono : x - x / 2 ^ prec = x * (1 - 1 / 2 ^ prec) := by ring
    have h1p : (0 : ℚ) ≤ 1 - 1 / 2 ^ prec := by
      rw [sub_nonneg, div_le_one h2]; exact h21
    have : L * (1 - 1 / 2 ^ prec) ≤ x * (1 - 1 / 2 ^ prec) :=
      mul_le_mul_of_nonneg_right hLx h1p
    linarith

theorem pow2_small_le {emin : ℤ} (h : emin ≤ -20) {L : ℚ} (hL : 1 / 1048576 ≤ L) :
    pow2 emin ≤ L := by
  have h1 := pow2_mono h
  have h2 : pow2 (-20) = 1 / 1048576 := by decide!
  linarith

theorem roundf_near {a : ℚ} (ha : 0 ≤ a) :
    roundf a = (⌊a + 1 / 2⌋ : ℚ) ∧ |(⌊a + 1 / 2⌋ : ℚ) - a| ≤ 1 / 2 := by
  refine ⟨by unfold roundf; rw [if_pos ha], ?_⟩
  have h1 := Int.floor_le (a + 1 / 2)
  have h2 := Int.lt_floor_add_one (a + 1 / 2)
  rw [abs_le]
  constructor <;> linarith

theorem get_distance_convert_ieee_near (c : ℕ) :
    ∃ n : ℤ, get_distance_convert ieee c = ieee.single (n / 10) ∧
      |(n : ℚ) - (c : ℚ) * (34029 / 100000000) * 10|
        ≤ 1 / 2 + (c : ℚ) * (34029 / 100000000) * 10 / 2 ^ 23 := by
  rcases Nat.eq_zero_or_pos c with hc | hc
  · subst hc
    exact ⟨0, by decide!, by norm_num⟩
  · have hc1 : (1 : ℚ) ≤ c := by exact_mod_cast hc
    -- the literal
    obtain ⟨k1, k2, k3⟩ := rel_step 53 (-1022) (x := 34029 / 100000000)
      (w := 34029 / 100000000) (M := 1) (L := 34029 / 100000000)
      (pow2_small_le (by norm_num) (by norm_num)) (le_refl _) (by norm_num)
    set k := rne 53 (-1022) (34029 / 100000000) with hk
    set w : ℚ := 34029 / 100000000 * c with hw
    have hw0 : 0 ≤ w := by positivity
    have hk0 : 0 ≤ k := le_trans (by norm_num) k3
    -- first product
    have x1lo : 34029 / 100000000 * (1 - 1 / 2 ^ 53) ≤ k * c := by nlinarith
    have x1hi : k * c ≤ w * (1 * (1 + 1 / 2 ^ 53)) := by
      rw [hw]; nlinarith
    obtain ⟨p1, p2, p3⟩ := rel_step 53 (-1022)
      (pow2_small_le (by norm_num) (by norm_num)) x1lo x1hi
    set p := rne 53 (-1022) (k * c) with hp
    -- second product
    have x2lo : 34029 / 100000000 * (1 - 1 / 2 ^ 53) * (1 - 1 / 2 ^ 53) * 10 ≤ p * 10 := by
      linarith
    have x2hi : p * 10 ≤ w * (1 * (1 + 1 / 2 ^ 53) * (1 + 1 / 2 ^ 53) * 10) := by linarith
    obtain ⟨q1, q2, q3⟩ := rel_step 53 (-1022)
      (pow2_small_le (by norm_num) (by norm_num)) x2lo x2hi
    set q := rne 53 (-1022) (p * 10) with hq
    -- narrowing to float
    obtain ⟨a1, a2, a3⟩ := rel_step 24 (-126)
      (pow2_small_le (by norm_num) (by norm_num)) q3 q2
    set a := rne 24 (-126) q with ha
    have ha0 : 0 ≤ a := le_trans (by norm_num) a3
    obtain ⟨r1, r2⟩ := roundf_near ha0
    refine ⟨⌊a + 1 / 2⌋, ?_, ?_⟩
    · show rne 24 (-126) (roundf a / 10) = rne 24 (-126) ((⌊a + 1 / 2⌋ : ℚ) / 10)
      rw [r1]
    · have hkc : |k * c - w| ≤ w * (1 / 2 ^ 53) := by
        have : k * c - w = (k - 34029 / 100000000) * c := by rw [hw]; ring
        rw [this, abs_mul, abs_of_nonneg (le_trans zero_le_one hc1)]
        have := mul_le_mul_of_nonneg_right k1 (le_trans zero_le_one hc1)
        calc |k - 34029 / 100000000| * c ≤ 34029 / 100000000 * (1 / 2 ^ 53) * c := this
          _ = w * (1 / 2 ^ 53) := by rw [hw]; ring
      have hgoal2 : (c : ℚ) * (34029 / 100000000) * 10 = w * 10 := by
        rw [hw]; ring
      rw [hgoal2]
      rw [abs_le] at r2 a1 q1 p1 hkc ⊢
      constructor <;> linarith

/-! ### A tenth, rounded to `float` and multiplied by ten -/

theorem pow2_sub_nat (a b : ℕ) : pow2 ((a : ℤ) - b) = (2 : ℚ) ^ a / (2 : ℚ) ^ b := by
  rw [pow2_eq_zpow, zpow_sub₀ (by norm_num), zpow_natCast, zpow_natCast]

theorem pow2_lt {m n : ℤ} (h : m < n) : pow2 m < pow2 n := by
  rw [pow2_eq_zpow, pow2_eq_zpow]
  exact zpow_lt_zpow_right₀ (by norm_num) h

theorem ilog2_unique {x : ℚ} {e : ℤ} (h1 : pow2 e ≤ |x|) (h2 : |x| < pow2 (e + 1)) :
    ilog2 x = e := by
  have hx : x ≠ 0 := by
    intro h
    rw [h, abs_zero] at h1
    exact absurd h1 (not_le.mpr (pow2_pos e))
  obtain ⟨s1, s2⟩ := ilog2_spec hx
  by_contra hne
  rcases lt_or_gt_of_ne hne with hlt | hgt
  · have : pow2 (ilog2 x + 1) ≤ pow2 e := pow2_mono (by omega)
    linarith
  · have : pow2 (e + 1) ≤ pow2 (ilog2 x) := pow2_mono (by omega)
    linarith

theorem rne_of_binade (prec : ℕ) (emin : ℤ) {x : ℚ} {e : ℤ} (h1 : pow2 e ≤ |x|)
    (h2 : |x| < pow2 (e + 1)) (he : emin ≤ e) :
    rne prec emin x = roundEven (x / pow2 (e - prec + 1)) * pow2 (e - prec + 1) := by
  have hx : x ≠ 0 := by
    intro h
    rw [h, abs_zero] at h1
    exact absurd h1 (not_le.mpr (pow2_pos e))
  unfold rne
  rw [if_neg hx, ilog2_unique h1 h2, max_eq_left he]

theorem roundEven_eq_of_near {t : ℚ} {B : ℤ} (h : |t - B| ≤ 1 / 2)
    (hB : |t - B| < 1 / 2 ∨ B % 2 = 0) : roundEven t = B := by
  obtain ⟨l, u⟩ := abs_le.mp h
  have hfl : (⌊t⌋ : ℚ) ≤ t := Int.floor_le t
  have hfu : t < ⌊t⌋ + 1 := Int.lt_floor_add_one t
  have hf : ⌊t⌋ = B ∨ ⌊t⌋ = B - 1 := by
    have a1 : B - 1 ≤ ⌊t⌋ := Int.le_floor.mpr (by push_cast; linarith)
    have a2 : ⌊t⌋ < B + 1 := Int.floor_lt.mpr (by push_cast; linarith)
    omega
  unfold roundEven
  simp only
  rcases hf with hf | hf
  · rw [hf]
    split_ifs with c1 c2 c3
    · rfl
    · exfalso; linarith
    · rfl
    · exfalso
      rcases hB with hB | hB
      · rw [abs_lt] at hB
        have : t - B = 1 / 2 := le_antisymm u (not_lt.mp c1)
        linarith [hB.2]
      · exact c3 hB
  · rw [hf]
    have hcast : ((B - 1 : ℤ) : ℚ) = (B : ℚ) - 1 := by push_cast; ring
    rw [hcast]
    split_ifs with c1 c2 c3
    · exfalso; linarith
    · ring
    · exfalso
      rcases hB with hB | hB
      · rw [abs_lt] at hB
        have : t - (B - 1) = 1 / 2 := le_antisymm (not_lt.mp c2) (not_lt.mp c1)
        linarith [hB.1]
      · omega
    · ring

theorem roundEven_tenth (A : ℕ) (hA : A % 2 = 0) :
    roundEven ((A : ℚ) / 10) = (((A + 5) / 10 : ℕ) : ℤ) := by
  have hb : 10 * ((A + 5) / 10) ≤ A + 4 ∧ A ≤ 10 * ((A + 5) / 10) + 4 := by omega
  obtain ⟨b1, b2⟩ := hb
  have c1 : (10 : ℚ) * (((A + 5) / 10 : ℕ) : ℚ) ≤ (A : ℚ) + 4 := by exact_mod_cast b1
  have c2 : (A : ℚ) ≤ 10 * (((A + 5) / 10 : ℕ) : ℚ) + 4 := by exact_mod_cast b2
  have hc : ((((A + 5) / 10 : ℕ) : ℤ) : ℚ) = (((A + 5) / 10 : ℕ) : ℚ) := Int.cast_natCast _
  have hlt : |(A : ℚ) / 10 - (((A + 5) / 10 : ℕ) : ℤ)| < 1 / 2 := by
    rw [abs_lt, hc]
    constructor <;> linarith
  exact roundEven_eq_of_near hlt.le (Or.inl hlt)

theorem single_tenth (n : ℕ) (h1 : 1 ≤ n) (h2 : n < 2 ^ 23) :
    ∃ S : ℕ, 4 ≤ S ∧ S ≤ 27 ∧ 10 * 2 ^ 23 ≤ n * 2 ^ S ∧ n * 2 ^ S < 10 * 2 ^ 24 ∧
      rne 24 (-126) ((n : ℚ) / 10) = (((n * 2 ^ S + 5) / 10 : ℕ) : ℚ) / 2 ^ S := by
  have hn1 : (1 : ℚ) ≤ n := by exact_mod_cast h1
  have hn2 : (n : ℚ) < 2 ^ 23 := by exact_mod_cast h2
  have hx0 : (0 : ℚ) < (n : ℚ) / 10 := by positivity
  have hxne : (n : ℚ) / 10 ≠ 0 := hx0.ne'
  obtain ⟨s1, s2⟩ := ilog2_spec hxne
  rw [abs_of_pos hx0] at s1 s2
  have elo : -4 ≤ ilog2 ((n : ℚ) / 10) := by
    by_contra hc
    have : pow2 (ilog2 ((n : ℚ) / 10) + 1) ≤ pow2 (-4) := pow2_mono (by omega)
    have h16 : pow2 (-4) = 1 / 16 := by decide!
    linarith
  have ehi : ilog2 ((n : ℚ) / 10) ≤ 19 := by
    by_contra hc
    have : pow2 20 ≤ pow2 (ilog2 ((n : ℚ) / 10)) := pow2_mono (by omega)
    have h20 : pow2 20 = 2 ^ 20 := by decide!
    linarith
  set e := ilog2 ((n : ℚ) / 10) with he
  obtain ⟨S, hS⟩ : ∃ S : ℕ, (S : ℤ) = 23 - e := ⟨(23 - e).toNat, Int.toNat_of_nonneg (by omega)⟩
  have hp : (0 : ℚ) < 2 ^ S := by positivity
  have e0 : pow2 e = (2 : ℚ) ^ 23 / 2 ^ S := by
    rw [← pow2_sub_nat 23 S]; congr 1; push_cast; omega
  have e1 : pow2 (e + 1) = (2 : ℚ) ^ 24 / 2 ^ S := by
    rw [← pow2_sub_nat 24 S]; congr 1; push_cast; omega
  have eu : pow2 (e - (24 : ℕ) + 1) = (2 : ℚ) ^ 0 / 2 ^ S := by
    rw [← pow2_sub_nat 0 S]; congr 1; push_cast; omega
  rw [e0, div_le_div_iff₀ hp (by norm_num)] at s1
  rw [e1, div_lt_div_iff₀ (by norm_num) hp] at s2
  have lo : 10 * 2 ^ 23 ≤ n * 2 ^ S := by
    have : ((10 * 2 ^ 23 : ℕ) : ℚ) ≤ ((n * 2 ^ S : ℕ) : ℚ) := by push_cast; linarith
    exact_mod_cast this
  have hi : n * 2 ^ S < 10 * 2 ^ 24 := by
    have : ((n * 2 ^ S : ℕ) : ℚ) < ((10 * 2 ^ 24 : ℕ) : ℚ) := by push_cast; linarith
    exact_mod_cast this
  refine ⟨S, by omega, by omega, lo, hi, ?_⟩
  have hev : (n * 2 ^ S) % 2 = 0 := by
    have : S = (S - 1) + 1 := by omega
    rw [this, pow_succ, ← mul_assoc]
    exact Nat.mul_mod_left _ 2
  unfold rne
  rw [if_neg hxne]
  simp only []
  rw [← he, max_eq_left (by omega), eu]
  have hq : (n : ℚ) / 10 / ((2 : ℚ) ^ 0 / 2 ^ S) = ((n * 2 ^ S : ℕ) : ℚ) / 10 := by
    push_cast
    field_simp
  rw [hq, roundEven_tenth _ hev, Int.cast_natCast, pow_zero, mul_one_div]

theorem round_back (n S : ℕ) (hS4 : 4 ≤ S) (hS : S ≤ 27) (hlo : 10 * 2 ^ 23 ≤ n * 2 ^ S)
    (hhi : n * 2 ^ S < 10 * 2 ^ 24) :
    rne 24 (-126) ((((n * 2 ^ S + 5) / 10 : ℕ) : ℚ) / 2 ^ S * 10) = n := by
  obtain ⟨a, ha⟩ : ∃ a : ℕ, n * 2 ^ S = 16 * a := by
    refine ⟨n * 2 ^ (S - 4), ?_⟩
    have : S = (S - 4) + 4 := by omega
    conv_lhs => rw [this, pow_add]
    ring
  set M := (n * 2 ^ S + 5) / 10 with hM
  have hp : (0 : ℚ) < 2 ^ S := by positivity
  have hy : (M : ℚ) / 2 ^ S * 10 = ((10 * M : ℕ) : ℚ) / 2 ^ S := by push_cast; ring
  have hy0 : (0 : ℚ) ≤ ((10 * M : ℕ) : ℚ) / 2 ^ S := by positivity
  have hnq : (n : ℚ) = ((16 * a : ℕ) : ℚ) / 2 ^ S := by
    rw [← ha]; push_cast; field_simp
  rw [hy]
  by_cases hc : 16 * a < 2 ^ 27
  · have y1 : 2 ^ 26 ≤ 10 * M := by omega
    have y2 : 10 * M < 2 ^ 27 := by omega
    have b1 : pow2 ((26 : ℕ) - (S : ℕ)) ≤ |((10 * M : ℕ) : ℚ) / 2 ^ S| := by
      rw [abs_of_nonneg hy0, pow2_sub_nat]
      apply div_le_div_of_nonneg_right _ hp.le
      exact_mod_cast y1
    have b2 : |((10 * M : ℕ) : ℚ) / 2 ^ S| < pow2 (((26 : ℕ) : ℤ) - (S : ℕ) + 1) := by
      have : (((26 : ℕ) : ℤ) - (S : ℕ) + 1) = ((27 : ℕ) : ℤ) - (S : ℕ) := by push_cast; ring
      rw [abs_of_nonneg hy0, this, pow2_sub_nat]
      apply div_lt_div_of_pos_right _ hp
      exact_mod_cast y2
    rw [rne_of_binade 24 (-126) b1 b2 (by push_cast; omega)]
    have hu : pow2 (((26 : ℕ) : ℤ) - (S : ℕ) - (24 : ℕ) + 1) = (2 : ℚ) ^ 3 / 2 ^ S := by
      rw [← pow2_sub_nat 3 S]; congr 1; push_cast; ring
    rw [hu]
    have hq : ((10 * M : ℕ) : ℚ) / 2 ^ S / ((2 : ℚ) ^ 3 / 2 ^ S) = ((10 * M : ℕ) : ℚ) / 8 := by
      rw [div_div_div_cancel_right₀ hp.ne']; norm_num
    have hr : roundEven (((10 * M : ℕ) : ℚ) / 8) = ((2 * a : ℕ) : ℤ) := by
      have d1 : 16 * a ≤ 10 * M + 4 := by omega
      have d2 : 10 * M ≤ 16 * a + 4 := by omega
      have q1 : ((16 * a : ℕ) : ℚ) ≤ ((10 * M : ℕ) : ℚ) + 4 := by exact_mod_cast d1
      have q2 : ((10 * M : ℕ) : ℚ) ≤ ((16 * a : ℕ) : ℚ) + 4 := by exact_mod_cast d2
      apply roundEven_eq_of_near
      · rw [abs_le, Int.cast_natCast]
        push_cast at q1 q2 ⊢
        constructor <;> linarith
      · right
        omega
    rw [hq, hr, hnq, Int.cast_natCast]
    push_cast
    field_simp
    ring
  · have y1 : 2 ^ 27 ≤ 10 * M := by omega
    have y2 : 10 * M < 2 ^ 28 := by omega
    have b1 : pow2 ((27 : ℕ) - (S : ℕ)) ≤ |((10 * M : ℕ) : ℚ) / 2 ^ S| := by
      rw [abs_of_nonneg hy0, pow2_sub_nat]
      apply div_le_div_of_nonneg_right _ hp.le
      exact_mod_cast y1
    have b2 : |((10 * M : ℕ) : ℚ) / 2 ^ S| < pow2 (((27 : ℕ) : ℤ) - (S : ℕ) + 1) := by
      have : (((27 : ℕ) : ℤ) - (S : ℕ) + 1) = ((28 : ℕ) : ℤ) - (S : ℕ) := by push_cast; ring
      rw [abs_of_nonneg hy0, this, pow2_sub_nat]
      apply div_lt_div_of_pos_right _ hp
      exact_mod_cast y2
    rw [rne_of_binade 24 (-126) b1 b2 (by push_cast; omega)]
    have hu : pow2 (((27 : ℕ) : ℤ) - (S : ℕ) - (24 : ℕ) + 1) = (2 : ℚ) ^ 4 / 2 ^ S := by
      rw [← pow2_sub_nat 4 S]; congr 1; push_cast; ring
    rw [hu]
    have hq : ((10 * M : ℕ) : ℚ) / 2 ^ S / ((2 : ℚ) ^ 4 / 2 ^ S) = ((10 * M : ℕ) : ℚ) / 16 := by
      rw [div_div_div_cancel_right₀ hp.ne']; norm_num
    have hr : roundEven (((10 * M : ℕ) : ℚ) / 16) = ((a : ℕ) : ℤ) := by
      have d1 : 16 * a ≤ 10 * M + 4 := by omega
      have d2 : 10 * M ≤ 16 * a + 4 := by omega
      have q1 : ((16 * a : ℕ) : ℚ) ≤ ((10 * M : ℕ) : ℚ) + 4 := by exact_mod_cast d1
      have q2 : ((10 * M : ℕ) : ℚ) ≤ ((16 * a : ℕ) : ℚ) + 4 := by exact_mod_cast d2
      have hlt : |((10 * M : ℕ) : ℚ) / 16 - ((a : ℕ) : ℤ)| < 1 / 2 := by
        rw [abs_lt, Int.cast_natCast]
        push_cast at q1 q2 ⊢
        constructor <;> linarith
      exact roundEven_eq_of_near hlt.le (Or.inl hlt)
    rw [hq, hr, hnq, Int.cast_natCast]
    push_cast
    field_simp
    ring

theorem single_tenth_round_trip (n : ℕ) (h : n < 2 ^ 23) :
    rne 24 (-126) (rne 24 (-126) ((n : ℚ) / 10) * 10) = n ∧
      ⌊rne 24 (-126) ((n : ℚ) / 10)⌋ = ((n / 10 : ℕ) : ℤ) := by
  rcases Nat.eq_zero_or_pos n with h0 | h1
  · subst h0
    decide!
  · obtain ⟨S, hS4, hS, lo, hi, hq⟩ := single_tenth n h1 h
    rw [hq]
    refine ⟨round_back n S hS4 hS lo hi, ?_⟩
    have hP : 16 ≤ 2 ^ S := by
      calc 16 = 2 ^ 4 := by norm_num
        _ ≤ 2 ^ S := Nat.pow_le_pow_right (by norm_num) hS4
    have hpq : (0 : ℚ) < 2 ^ S := by positivity
    have hn : n * 2 ^ S = 10 * (n / 10 * 2 ^ S) + n % 10 * 2 ^ S := by
      conv_lhs => rw [← Nat.div_add_mod n 10]
      ring
    have hj : n % 10 * 2 ^ S ≤ 9 * 2 ^ S := Nat.mul_le_mul_right _ (by omega)
    obtain ⟨kP, hkP⟩ : ∃ kP, kP = n / 10 * 2 ^ S := ⟨_, rfl⟩
    obtain ⟨jP, hjP⟩ : ∃ jP, jP = n % 10 * 2 ^ S := ⟨_, rfl⟩
    obtain ⟨P, hPd⟩ : ∃ P, P = 2 ^ S := ⟨_, rfl⟩
    rw [← hkP, ← hjP] at hn
    rw [← hjP, ← hPd] at hj
    rw [← hPd] at hP
    have m1 : kP ≤ (n * 2 ^ S + 5) / 10 := by omega
    have m2 : (n * 2 ^ S + 5) / 10 < kP + P := by omega
    rw [hkP] at m1
    rw [hkP, hPd] at m2
    have q1 : ((n / 10 : ℕ) : ℚ) * 2 ^ S ≤ (((n * 2 ^ S + 5) / 10 : ℕ) : ℚ) := by
      exact_mod_cast m1
    have q2 : (((n * 2 ^ S + 5) / 10 : ℕ) : ℚ) < ((n / 10 : ℕ) : ℚ) * 2 ^ S + 2 ^ S := by
      exact_mod_cast m2
    rw [Int.floor_eq_iff, Int.cast_natCast]
    constructor
    · rw [le_div_iff₀ hpq]
      exact q1
    · rw [div_lt_iff₀ hpq]
      linarith

/-! ### The composition -/

theorem showsTenths_of {F : FloatArith} {d : ℚ} {r : ℤ} (hr : 0 ≤ r)
    (hmm : mmDistance F d = r) (hicm : icmDistance d = r / 10) : ShowsTenths F d r := by
  obtain ⟨l0, l1, l2, l3⟩ := lane_pack (ssd0 d) (ssd1 F d) (ssd2 F d) (ssd3 F d)
  obtain ⟨h1, h2, h3⟩ := digits_of_nonneg (hmm ▸ hr : 0 ≤ mmDistance F d)
  have hq : (0 : ℤ) ≤ r / 10 := by omega
  refine ⟨hmm, ?_, ?_, ?_, ?_, ?_⟩
  · show lane 1 (pack _ _ _ _) = _
    rw [l1]; unfold ssd1; rw [h1, hmm]
  · show lane 2 (pack _ _ _ _) = _
    rw [l2]; unfold ssd2; rw [h2, hmm]
  · show lane 3 (pack _ _ _ _) = _
    rw [l3]; unfold ssd3; rw [h3, hmm]
  · intro hlt
    show lane 0 (pack _ _ _ _) = _
    rw [l0]; unfold ssd0
    rw [hicm, if_neg (by omega), Int.tdiv_eq_ediv hq (by norm_num)]
    congr 1
    omega
  · intro hge
    show lane 0 (pack _ _ _ _) = _
    rw [l0]; unfold ssd0
    rw [hicm, if_pos (by omega)]
    decide

theorem get_distance_convert_exact_eq (c : ℕ) :
    get_distance_convert exactArith c
      = (round ((c : ℚ) * (34029 / 100000000) * 10) : ℚ) / 10 ∧
      0 ≤ round ((c : ℚ) * (34029 / 100000000) * 10) := by
  have hv : (0 : ℚ) ≤ 34029 / 100000000 * (c : ℚ) * 10 := by positivity
  have hv2 : (0 : ℚ) ≤ (c : ℚ) * (34029 / 100000000) * 10 := by positivity
  constructor
  · simp only [get_distance_convert, exactArith, roundf]
    rw [if_pos hv, mul_comm (34029 / 100000000 : ℚ) (c : ℚ), round_eq]
  · rw [round_eq]
    exact Int.floor_nonneg.mpr (by linarith)

theorem showsTenths_exact (r : ℤ) (hr : 0 ≤ r) (hlt : r < 2147483648) :
    ShowsTenths exactArith ((r : ℚ) / 10) r := by
  have hr0 : (0 : ℚ) ≤ r := by exact_mod_cast hr
  have hrlt : (r : ℚ) < 2147483648 := by exact_mod_cast hlt
  have hd : (0 : ℚ) ≤ (r : ℚ) / 10 := by positivity
  have hmm : mmDistance exactArith ((r : ℚ) / 10) = r := by
    rw [mmDistance_exact hd (by linarith)]
    have : (r : ℚ) / 10 * 10 = r := by ring
    rw [this, Int.floor_intCast]
  refine showsTenths_of hr hmm ?_
  rw [icmDistance_eq_floor hd (by linarith), ← floor_mul_ten_div]
  have : (r : ℚ) / 10 * 10 = r := by ring
  rw [this, Int.floor_intCast]

theorem casts_ieee_tenths (n : ℕ) (h : n < 2 ^ 23) :
    mmDistance ieee (ieee.single ((n : ℚ) / 10)) = n ∧
      icmDistance (ieee.single ((n : ℚ) / 10)) = (n : ℤ) / 10 := by
  obtain ⟨k1, k2⟩ := single_tenth_round_trip n h
  have hq0 : (0 : ℚ) ≤ rne 24 (-126) ((n : ℚ) / 10) := rne_nonneg 24 (-126) (by positivity)
  have hnq : (n : ℚ) < 8388608 := by exact_mod_cast h
  constructor
  · show castInt (rne 24 (-126) (rne 24 (-126) ((n : ℚ) / 10) * 10)) = n
    rw [k1, castInt_of_nonneg (by positivity) (by linarith), Int.floor_natCast]
  · show castInt (rne 24 (-126) ((n : ℚ) / 10)) = (n : ℤ) / 10
    have hq1 : rne 24 (-126) ((n : ℚ) / 10) < 2147483648 := by
      have h1 := Int.lt_floor_add_one (rne 24 (-126) ((n : ℚ) / 10))
      rw [k2] at h1
      have h2 : (((n / 10 : ℕ) : ℤ) : ℚ) ≤ (n : ℚ) := by
        rw [Int.cast_natCast]
        exact_mod_cast Nat.div_le_self n 10
      linarith
    rw [castInt_of_nonneg hq0 hq1, k2]
    norm_cast

theorem showsTenths_ieee (n : ℕ) (h : n < 2 ^ 23) :
    ShowsTenths ieee (ieee.single ((n : ℚ) / 10)) n :=
  showsTenths_of (by positivity) (casts_ieee_tenths n h).1 (casts_ieee_tenths n h).2

theorem hex_encoder_ieee_tenths_lanes (n : ℕ) (h : n < 100) :
    lane 0 (hex_encoder ieee (ieee.single ((n : ℚ) / 10)))
      = lane 2 (hex_encoder ieee (ieee.single ((n : ℚ) / 10))) := by
  obtain ⟨-, -, l2, -, l0, -⟩ := showsTenths_ieee n (by omega)
  rw [l0 (by omega), l2]
  congr 1
  omega

/-! ## The display encoder -/

/-- Counterexample to C1 as stated: for the `float` 9.9 the product with 10
rounds to 99.0, so the code has `mm = 99` and lane 1 holds the pattern of 9,
while `⌊d * 10⌋ = 98` ends in 8; and for the `float` 214748368.0 the product
is `2 ^ 31`, which is no `int`: the cast gives `INT_MIN`, the three digits
are negative and lanes 1 to 3 hold the blank pattern instead of the patterns
of the digits of `⌊d * 10⌋`. -/
theorem hex_encoder_mm_not_floor :
    ((0 : ℚ) ≤ ieee.single (99 / 10) ∧ ⌊ieee.single (99 / 10) * 10⌋ = 98 ∧
        mmDistance ieee (ieee.single (99 / 10)) = 99 ∧
        lane 1 (hex_encoder ieee (ieee.single (99 / 10))) = format_hex 9 ∧
        lane 1 (hex_encoder ieee (ieee.single (99 / 10)))
          ≠ format_hex (⌊ieee.single (99 / 10) * 10⌋ % 10)) ∧
      (ieee.single 214748368 = 214748368 ∧ ieee.single (214748368 * 10) = 2147483648 ∧
        ⌊(214748368 : ℚ) * 10⌋ = 2147483680 ∧
        mmDistance ieee 214748368 = -2147483648 ∧
        mmDistance exactArith 214748368 = -2147483648 ∧
        ssd1 ieee 214748368 = -8 ∧ ssd2 ieee 214748368 = -4 ∧ ssd3 ieee 214748368 = -6 ∧
        lane 1 (hex_encoder ieee 214748368) = 0xFF ∧
        lane 2 (hex_encoder ieee 214748368) = 0xFF ∧
        lane 3 (hex_encoder ieee 214748368) = 0xFF ∧
        lane 1 (hex_encoder ieee 214748368) ≠ format_hex (⌊(214748368 : ℚ) * 10⌋ % 10)) := by
  decide!

/-- C1, amended. For every non-negative distance `d` whose float product
`d * 10` is below `2 ^ 31`, with `mm` the value of the truncating cast
`int mmDistance = cmDistance * 10`, that is the floor of the rounded product
(`⌊d * 10⌋` when the product is not rounded), the subtract-and-multiply digit
extraction of `hex_encoder` yields `mm mod 10`, `(mm / 10) mod 10` and
`(mm / 100) mod 10`, and lanes 1, 2 and 3 of the result hold the patterns of
these digits. -/
theorem hex_encoder_lanes_1_2_3 (F : FloatArith) (hF : F.SignPreserving) (d : ℚ) (hd : 0 ≤ d)
    (hlt : F.single (d * 10) < 2 ^ 31) :
    mmDistance F d = ⌊F.single (d * 10)⌋ ∧
      (ssd1 F d = mmDistance F d % 10 ∧ ssd2 F d = mmDistance F d / 10 % 10 ∧
        ssd3 F d = mmDistance F d / 100 % 10) ∧
      (lane 1 (hex_encoder F d) = format_hex (mmDistance F d % 10) ∧
        lane 2 (hex_encoder F d) = format_hex (mmDistance F d / 10 % 10) ∧
        lane 3 (hex_encoder F d) = format_hex (mmDistance F d / 100 % 10)) ∧
      (d * 10 < 2 ^ 31 → mmDistance exactArith d = ⌊d * 10⌋) := by
  rw [two_pow_31] at hlt
  obtain ⟨h1, h2, h3⟩ := digits_of_nonneg (mmDistance_nonneg hF hd hlt)
  obtain ⟨-, l1, l2, l3⟩ := lane_pack (ssd0 d) (ssd1 F d) (ssd2 F d) (ssd3 F d)
  refine ⟨mmDistance_eq_floor hF hd hlt, ⟨h1, h2, h3⟩, ⟨?_, ?_, ?_⟩, ?_⟩
  · rw [← h1]; exact l1
  · rw [← h2]; exact l2
  · rw [← h3]; exact l3
  · intro he
    rw [two_pow_31] at he
    exact mmDistance_exact hd he

/-- Witness for C1: the `float`s 12.3 and 9.9 under IEEE arithmetic; for 9.9
the rounded product is 99. -/
theorem hex_encoder_lanes_1_2_3_witness :
    (ieee.SignPreserving ∧ (0 : ℚ) ≤ ieee.single (123 / 10) ∧
        ieee.single (ieee.single (123 / 10) * 10) < 2 ^ 31) ∧
      lane 1 (hex_encoder ieee (ieee.single (123 / 10)))
        = format_hex (mmDistance ieee (ieee.single (123 / 10)) % 10) ∧
      mmDistance ieee (ieee.single (123 / 10)) = 123 ∧
      mmDistance ieee (ieee.single (99 / 10)) = ⌊ieee.single (ieee.single (99 / 10) * 10)⌋ ∧
      ⌊ieee.single (ieee.single (99 / 10) * 10)⌋ = 99 :=
  ⟨⟨ieee_signPreserving, by decide!, by decide!⟩,
    (hex_encoder_lanes_1_2_3 ieee ieee_signPreserving (ieee.single (123 / 10)) (by decide!)
      (by decide!)).2.2.1.1,
    by decide!,
    (hex_encoder_lanes_1_2_3 ieee ieee_signPreserving (ieee.single (99 / 10)) (by decide!)
      (by decide!)).1,
    by decide!⟩

/-- C2. For every distance `d` with `0 ≤ d ≤ 9.9` the lane-0 digit computed by
`hex_encoder` is `⌊d⌋ mod 10` and is not the sentinel 191; lane 0 of the
result is `format_hex ⌊d⌋` and never `0xBF`. -/
theorem hex_encoder_lane0_digit (F : FloatArith) (d : ℚ) (h0 : 0 ≤ d) (h9 : d ≤ 99 / 10) :
    ssd0 d = ⌊d⌋ % 10 ∧ ssd0 d ≠ 191 ∧
      lane 0 (hex_encoder F d) = format_hex ⌊d⌋ ∧ lane 0 (hex_encoder F d) ≠ 0xBF := by
  have hf0 : (0 : ℤ) ≤ ⌊d⌋ := Int.floor_nonneg.mpr h0
  have hf9 : ⌊d⌋ < 10 := Int.floor_lt.mpr (by push_cast; linarith)
  have hs : ssd0 d = ⌊d⌋ := ssd0_of_lt_ten h0 (by linarith)
  have hl : lane 0 (hex_encoder F d) = format_hex ⌊d⌋ := by
    rw [← hs]
    exact (lane_pack (ssd0 d) (ssd1 F d) (ssd2 F d) (ssd3 F d)).1
  refine ⟨by rw [hs]; omega, by rw [hs]; omega, hl, ?_⟩
  intro hbf
  have := format_hex_sentinel_only (hl ▸ hbf)
  omega

/-- Witness for C2: the `float` nearest to 9.9. -/
theorem hex_encoder_lane0_digit_witness :
    ((0 : ℚ) ≤ ieee.single (99 / 10) ∧ ieee.single (99 / 10) ≤ 99 / 10) ∧
      ssd0 (ieee.single (99 / 10)) = ⌊ieee.single (99 / 10)⌋ % 10 ∧
      ssd0 (ieee.single (99 / 10)) ≠ 191 ∧
      lane 0 (hex_encoder ieee (ieee.single (99 / 10))) = format_hex ⌊ieee.single (99 / 10)⌋ ∧
      lane 0 (hex_encoder ieee (ieee.single (99 / 10))) ≠ 0xBF :=
  ⟨by decide!, hex_encoder_lane0_digit ieee (ieee.single (99 / 10)) (by decide!) (by decide!)⟩

/-- Counterexample to C3 as stated: the `float` 3000000000.0 is at least 10,
but `(int)cmDistance` is no `int`; the cast gives `INT_MIN`, which is not
above 9, the digit is `INT_MIN - (INT_MIN / 10) * 10 = -8` and lane 0 holds
the blank pattern `0xFF`, not `0xBF`. -/
theorem hex_encoder_lane0_overflow :
    (10 : ℚ) ≤ 3000000000 ∧ ieee.single 3000000000 = 3000000000 ∧
      icmDistance 3000000000 = -2147483648 ∧ ssd0 3000000000 = -8 ∧
      ssd0 3000000000 ≠ 191 ∧ lane 0 (hex_encoder ieee 3000000000) = 0xFF ∧
      lane 0 (hex_encoder ieee 3000000000) ≠ 0xBF := by
  decide!

/-- C3, amended. For every distance `d` with `10.0 ≤ d < 2 ^ 31` the lane-0
digit computed by `hex_encoder` is the sentinel 191, so lane 0 of the result
is `0xBF`, whatever lanes 1 to 3 hold. -/
theorem hex_encoder_lane0_sentinel (F : FloatArith) (d : ℚ) (h10 : 10 ≤ d)
    (hlt : d < 2 ^ 31) :
    ssd0 d = 191 ∧ lane 0 (hex_encoder F d) = 0xBF := by
  rw [two_pow_31] at hlt
  have hs : ssd0 d = 191 := ssd0_of_ten_le h10 hlt
  refine ⟨hs, ?_⟩
  have hl : lane 0 (hex_encoder F d) = format_hex (ssd0 d) :=
    (lane_pack (ssd0 d) (ssd1 F d) (ssd2 F d) (ssd3 F d)).1
  rw [hl, hs]
  decide

/-- Witness for C3: the distance 10.0 itself, and 214748368.0, where the
millimetre value overflows but the centimetre value does not. -/
theorem hex_encoder_lane0_sentinel_witness :
    ((10 : ℚ) ≤ 10 ∧ (10 : ℚ) < 2 ^ 31) ∧
      (ssd0 10 = 191 ∧ lane 0 (hex_encoder ieee 10) = 0xBF) ∧
      lane 0 (hex_encoder ieee 214748368) = 0xBF :=
  ⟨by norm_num, hex_encoder_lane0_sentinel ieee 10 (le_refl 10) (by norm_num),
    (hex_encoder_lane0_sentinel ieee 214748368 (by norm_num) (by norm_num)).2⟩

/-- C4. For every input distance the word returned by `hex_encoder` is a
32-bit value whose byte `k` is exactly `format_hex` of the `k`-th digit: the
sum `ssd0 + (ssd1<<8) + (ssd2<<16) + (ssd3<<24)`, taken modulo `2 ^ 32`, never
carries from one lane into another. -/
theorem hex_encoder_lanes (F : FloatArith) (d : ℚ) :
    hex_encoder F d < 2 ^ 32 ∧
      hex_encoder F d = format_hex (ssd0 d) + format_hex (ssd1 F d) * 2 ^ 8
        + format_hex (ssd2 F d) * 2 ^ 16 + format_hex (ssd3 F d) * 2 ^ 24 ∧
      lane 0 (hex_encoder F d) = format_hex (ssd0 d) ∧
      lane 1 (hex_encoder F d) = format_hex (ssd1 F d) ∧
      lane 2 (hex_encoder F d) = format_hex (ssd2 F d) ∧
      lane 3 (hex_encoder F d) = format_hex (ssd3 F d) := by
  have h0 := format_hex_le (ssd0 d)
  have h1 := format_hex_le (ssd1 F d)
  have h2 := format_hex_le (ssd2 F d)
  have h3 := format_hex_le (ssd3 F d)
  have he := pack_eq (ssd0 d) (ssd1 F d) (ssd2 F d) (ssd3 F d)
  refine ⟨?_, he, lane_pack _ _ _ _⟩
  unfold hex_encoder
  omega

/-- C5. `format_hex` is total: it maps 0..9 to `0xC0, 0xF9, 0xA4, 0xB0, 0x99,
0x92, 0x82, 0xF8, 0x80, 0x90`, 191 to `0xBF`, and every other integer,
negative ones and 10..190 included, to the default `0xFF`. -/
theorem format_hex_total :
    (format_hex 0 = 0xC0 ∧ format_hex 1 = 0xF9 ∧ format_hex 2 = 0xA4 ∧ format_hex 3 = 0xB0 ∧
        format_hex 4 = 0x99 ∧ format_hex 5 = 0x92 ∧ format_hex 6 = 0x82 ∧ format_hex 7 = 0xF8 ∧
        format_hex 8 = 0x80 ∧ format_hex 9 = 0x90 ∧ format_hex 191 = 0xBF) ∧
      ∀ n : ℤ, (n < 0 ∨ 9 < n) ∧ n ≠ 191 → format_hex n = 0xFF := by
  refine ⟨by decide, ?_⟩
  rintro n ⟨hn, h191⟩
  unfold format_hex
  split <;> first | rfl | omega

/-- Witness for C5: the default branch at `-1`, `10` and `190`. -/
theorem format_hex_total_witness :
    format_hex (-1) = 0xFF ∧ format_hex 10 = 0xFF ∧ format_hex 190 = 0xFF :=
  ⟨format_hex_total.2 (-1) (by decide), format_hex_total.2 10 (by decide),
    format_hex_total.2 190 (by decide)⟩

/-! ## The conversion of `get_distance` -/

/-- Counterexample to C6 as stated: under IEEE arithmetic the count 121514
(exact product 413.4999906) is narrowed to the `float` 413.5 before `roundf`,
so the function returns the `float` nearest to 41.4, whereas rounding the
exact product gives 413, that is 41.3. -/
theorem get_distance_convert_ieee_off :
    round ((121514 : ℚ) * (34029 / 100000000) * 10) = 413 ∧
      get_distance_convert ieee 121514 = ieee.single (414 / 10) ∧
      get_distance_convert ieee 121514 ≠ ieee.single (413 / 10) ∧
      get_distance_convert ieee 121514
        ≠ (round ((121514 : ℚ) * (34029 / 100000000) * 10) : ℚ) / 10 := by
  decide!

/-- C6, amended. For every cycle count `c` the conversion of `get_distance`
returns the `float` nearest to `n / 10` for an integer `n` with
`|n - c * 0.0034029| ≤ 1/2 + c * 0.0034029 / 2 ^ 23`: `n` is `roundf` of the
double product after it has been narrowed to `float`.  In exact arithmetic the
result is `round (c * 0.00034029 * 10) / 10` with halves rounded away from
zero, that is `n / 10` for the integer `n` with
`n - 1/2 ≤ c * 0.0034029 < n + 1/2`.  The counts 14700 and 29400 give 5.0 and
10.0, in exact and in IEEE arithmetic. -/
theorem get_distance_convert_rounds :
    (∀ c : ℕ, ∃ n : ℤ, get_distance_convert ieee c = ieee.single (n / 10) ∧
        |(n : ℚ) - (c : ℚ) * (34029 / 100000000) * 10|
          ≤ 1 / 2 + (c : ℚ) * (34029 / 100000000) * 10 / 2 ^ 23) ∧
      (∀ c : ℕ,
        get_distance_convert exactArith c
          = (round ((c : ℚ) * (34029 / 100000000) * 10) : ℚ) / 10 ∧
        ∃ n : ℤ, get_distance_convert exactArith c = n / 10 ∧
          (n : ℚ) - 1 / 2 ≤ (c : ℚ) * (34029 / 100000000) * 10 ∧
          (c : ℚ) * (34029 / 100000000) * 10 < n + 1 / 2) ∧
      get_distance_convert exactArith 14700 = 5 ∧ get_distance_convert exactArith 29400 = 10 ∧
      get_distance_convert ieee 14700 = 5 ∧ get_distance_convert ieee 29400 = 10 := by
  refine ⟨get_distance_convert_ieee_near, fun c => ?_, by decide!, by decide!, by decide!,
    by decide!⟩
  have hv : (0 : ℚ) ≤ 34029 / 100000000 * (c : ℚ) * 10 := by positivity
  have he : get_distance_convert exactArith c
      = (⌊(c : ℚ) * (34029 / 100000000) * 10 + 1 / 2⌋ : ℚ) / 10 := by
    simp only [get_distance_convert, exactArith, roundf]
    rw [if_pos hv, mul_comm (34029 / 100000000 : ℚ) (c : ℚ)]
  refine ⟨by rw [he, round_eq], ⌊(c : ℚ) * (34029 / 100000000) * 10 + 1 / 2⌋, he, ?_, ?_⟩
  · have := Int.floor_le ((c : ℚ) * (34029 / 100000000) * 10 + 1 / 2)
    linarith
  · have := Int.lt_floor_add_one ((c : ℚ) * (34029 / 100000000) * 10 + 1 / 2)
    linarith

/-! ## The extrema of `main` -/

/-- C7. One iteration in accumulate mode (`switches == 1`) sets max to the
reading `d` and leaves min unchanged when `d > max`, otherwise sets min to `d`
and leaves max unchanged when `d < min`, otherwise changes nothing.  From
max = 0, min = 400 a reading of 250.0 gives max = 250.0, min = 400, and a
following reading of 100.0 gives min = 100.0 with max still 250.0. -/
theorem main_switches_accumulate (s : Extrema) (d : ℚ) :
    (d > s.max_cmDistance → main_switches 1 d s = ⟨d, s.min_cmDistance⟩) ∧
      (¬ d > s.max_cmDistance → d < s.min_cmDistance →
        main_switches 1 d s = ⟨s.max_cmDistance, d⟩) ∧
      (¬ d > s.max_cmDistance → ¬ d < s.min_cmDistance → main_switches 1 d s = s) ∧
      main_switches 1 250 main_init = ⟨250, 400⟩ ∧
      main_switches 1 100 (main_switches 1 250 main_init) = ⟨250, 100⟩ := by
  refine ⟨fun h => ?_, fun h h2 => ?_, fun h h2 => ?_, by decide!, by decide!⟩
  · simp [main_switches, h]
  · simp [main_switches, h, h2]
  · simp [main_switches, h, h2]

/-- Witness for C7: the three cases at concrete states. -/
theorem main_switches_accumulate_witness :
    main_switches 1 7 ⟨5, 400⟩ = ⟨7, 400⟩ ∧ main_switches 1 3 ⟨5, 400⟩ = ⟨5, 3⟩ ∧
      main_switches 1 4 ⟨5, 3⟩ = ⟨5, 3⟩ :=
  ⟨(main_switches_accumulate ⟨5, 400⟩ 7).1 (by decide!),
    (main_switches_accumulate ⟨5, 400⟩ 3).2.1 (by decide!) (by decide!),
    (main_switches_accumulate ⟨5, 3⟩ 4).2.2.1 (by decide!) (by decide!)⟩

/-- C8. One iteration in reset mode (`switches == 2`) leaves max = 0 and
min = 400, whatever the extrema were and whatever the current reading. -/
theorem main_switches_reset (s : Extrema) (d : ℚ) :
    main_switches 2 d s = ⟨0, 400⟩ ∧ main_switches 2 d s = main_init := by
  constructor <;> simp [main_switches, main_init]

/-- C9. The extrema are written only when a mode switch is active: for every
switch value other than 1 and 2 (0, 3 or larger) and every reading, one
iteration leaves max and min unchanged; and in accumulate mode max changes
only if the reading strictly exceeds it, min only if the reading strictly
undercuts it. -/
theorem main_switches_frame (switches : ℕ) (h1 : switches ≠ 1) (h2 : switches ≠ 2)
    (s : Extrema) (d : ℚ) :
    main_switches switches d s = s ∧
      ((main_switches 1 d s).max_cmDistance ≠ s.max_cmDistance → d > s.max_cmDistance) ∧
      ((main_switches 1 d s).min_cmDistance ≠ s.min_cmDistance → d < s.min_cmDistance) := by
  refine ⟨by simp [main_switches, h1, h2], fun h => ?_, fun h => ?_⟩
  · by_contra hn
    apply h
    by_cases hm : d < s.min_cmDistance <;> simp [main_switches, hn, hm]
  · by_contra hn
    apply h
    by_cases hm : d > s.max_cmDistance <;> simp [main_switches, hn, hm]

/-- Witness for C9: several switches on (value 3), state max = 5, min = 3. -/
theorem main_switches_frame_witness :
    ((3 : ℕ) ≠ 1 ∧ (3 : ℕ) ≠ 2) ∧ main_switches 3 7 ⟨5, 3⟩ = ⟨5, 3⟩ :=
  ⟨by decide, (main_switches_frame 3 (by decide) (by decide) ⟨5, 3⟩ 7).1⟩

/-- C10. After any finite sequence of accumulate-mode readings applied to the
initial (or just-reset) extrema, the stored maximum is the running maximum of
the observed distances: the largest of 0 and all readings. -/
theorem accumulate_running_max (readings : List ℚ) :
    (accumulate readings main_init).max_cmDistance = readings.foldl max 0 ∧
      (∀ d ∈ readings, d ≤ (accumulate readings main_init).max_cmDistance) ∧
      0 ≤ (accumulate readings main_init).max_cmDistance ∧
      ((accumulate readings main_init).max_cmDistance = 0 ∨
        (accumulate readings main_init).max_cmDistance ∈ readings) ∧
      ∀ (s : Extrema) (d : ℚ),
        (accumulate readings (main_switches 2 d s)).max_cmDistance = readings.foldl max 0 := by
  have h : (accumulate readings main_init).max_cmDistance = readings.foldl max 0 :=
    accumulate_max readings main_init
  refine ⟨h, ?_, ?_, ?_, fun s d => ?_⟩
  · rw [h]; exact foldl_max_mem_le readings 0
  · rw [h]; exact foldl_max_init_le readings 0
  · rw [h]; exact foldl_max_attained readings 0
  · have hr : main_switches 2 d s = main_init := by simp [main_switches, main_init]
    rw [hr, h]

/-- Witness for C10: the readings 250.0, 100.0, 300.0 leave max = 300.0. -/
theorem accumulate_running_max_witness :
    (accumulate [250, 100, 300] main_init).max_cmDistance = 300 :=
  (accumulate_running_max [250, 100, 300]).1.trans (by decide!)

/-- C11. The stored minimum is not the running minimum: the first reading
250.0 exceeds max = 0, so the `else if` never compares it with min, which
stays 400 although the smallest of 400 and the reading is 250; and rising
readings 100, 200, 300 leave min = 400 above max = 300. -/
theorem accumulate_min_stale :
    (accumulate [250] main_init).min_cmDistance = 400 ∧ [(250 : ℚ)].foldl min 400 = 250 ∧
      accumulate [100, 200, 300] main_init = ⟨300, 400⟩ ∧
      [(100 : ℚ), 200, 300].foldl min 400 = 100 := by
  decide!

/-! ## The display encoder, continued -/

/-- Counterexample to C12 as stated: for the non-negative `float`
214748368.0 the product with 10 is `2 ^ 31`, no `int`; the cast gives
`INT_MIN`, the digits passed to `format_hex` for lanes 1 to 3 are -8, -4 and
-6, the default branch is taken and the word is `0xFFFFFFBF`. -/
theorem hex_encoder_blank_overflow :
    (0 : ℚ) ≤ 214748368 ∧ ieee.single 214748368 = 214748368 ∧
      hex_encoder ieee 214748368 = 0xFFFFFFBF ∧
      (ssd0 214748368 = 191 ∧ ssd1 ieee 214748368 = -8 ∧ ssd2 ieee 214748368 = -4 ∧
        ssd3 ieee 214748368 = -6) ∧
      lane 0 (hex_encoder ieee 214748368) = 0xBF ∧
      lane 1 (hex_encoder ieee 214748368) = 0xFF ∧
      lane 2 (hex_encoder ieee 214748368) = 0xFF ∧
      lane 3 (hex_encoder ieee 214748368) = 0xFF ∧
      hex_encoder exactArith 214748368 = 0xFFFFFFBF := by
  decide!

/-- C12, amended. For every non-negative distance `d` below `2 ^ 31` whose
float product `d * 10` is below `2 ^ 31`, each of the four digits that
`hex_encoder` passes to `format_hex` lies in `{0..9, 191}` (lane 0) or in
`{0..9}` (lanes 1 to 3), so the default branch of the lookup is not taken and
no byte lane of the result is the blank pattern `0xFF`. -/
theorem hex_encoder_no_blank (F : FloatArith) (hF : F.SignPreserving) (d : ℚ) (hd : 0 ≤ d)
    (hlt : d < 2 ^ 31) (hmm : F.single (d * 10) < 2 ^ 31) :
    (((0 ≤ ssd0 d ∧ ssd0 d ≤ 9) ∨ ssd0 d = 191) ∧ (0 ≤ ssd1 F d ∧ ssd1 F d ≤ 9) ∧
        (0 ≤ ssd2 F d ∧ ssd2 F d ≤ 9) ∧ (0 ≤ ssd3 F d ∧ ssd3 F d ≤ 9)) ∧
      lane 0 (hex_encoder F d) ≠ 0xFF ∧ lane 1 (hex_encoder F d) ≠ 0xFF ∧
      lane 2 (hex_encoder F d) ≠ 0xFF ∧ lane 3 (hex_encoder F d) ≠ 0xFF := by
  rw [two_pow_31] at hlt hmm
  obtain ⟨h1, h2, h3⟩ := digits_of_nonneg (mmDistance_nonneg hF hd hmm)
  obtain ⟨l0, l1, l2, l3⟩ := lane_pack (ssd0 d) (ssd1 F d) (ssd2 F d) (ssd3 F d)
  have r0 := ssd0_range hd hlt
  have r1 : 0 ≤ ssd1 F d ∧ ssd1 F d ≤ 9 := by
    unfold ssd1; rw [h1]; omega
  have r2 : 0 ≤ ssd2 F d ∧ ssd2 F d ≤ 9 := by
    unfold ssd2; rw [h2]; omega
  have r3 : 0 ≤ ssd3 F d ∧ ssd3 F d ≤ 9 := by
    unfold ssd3; rw [h3]; omega
  refine ⟨⟨r0, r1, r2, r3⟩, ?_, ?_, ?_, ?_⟩
  · show lane 0 (pack _ _ _ _) ≠ 0xFF
    rw [l0]; exact format_hex_ne_blank r0
  · show lane 1 (pack _ _ _ _) ≠ 0xFF
    rw [l1]; exact format_hex_ne_blank (Or.inl r1)
  · show lane 2 (pack _ _ _ _) ≠ 0xFF
    rw [l2]; exact format_hex_ne_blank (Or.inl r2)
  · show lane 3 (pack _ _ _ _) ≠ 0xFF
    rw [l3]; exact format_hex_ne_blank (Or.inl r3)

/-- Witness for C12: the largest distance `get_distance` can return for a
32-bit count, 1461537.0, under IEEE arithmetic. -/
theorem hex_encoder_no_blank_witness :
    (ieee.SignPreserving ∧ (0 : ℚ) ≤ 1461537 ∧ (1461537 : ℚ) < 2 ^ 31 ∧
        ieee.single (1461537 * 10) < 2 ^ 31) ∧
      lane 0 (hex_encoder ieee 1461537) ≠ 0xFF ∧ lane 1 (hex_encoder ieee 1461537) ≠ 0xFF ∧
      lane 2 (hex_encoder ieee 1461537) ≠ 0xFF ∧ lane 3 (hex_encoder ieee 1461537) ≠ 0xFF :=
  ⟨⟨ieee_signPreserving, by norm_num, by norm_num, by decide!⟩,
    (hex_encoder_no_blank ieee ieee_signPreserving 1461537 (by norm_num) (by norm_num)
      (by decide!)).2⟩

/-- C13. `hex_encoder(0.0)` is the word whose four byte lanes are all `0xC0`,
the pattern of digit 0: `0xC0C0C0C0`. -/
theorem hex_encoder_zero :
    hex_encoder ieee 0 = 0xC0C0C0C0 ∧ hex_encoder exactArith 0 = 0xC0C0C0C0 ∧
      lane 0 (hex_encoder ieee 0) = 0xC0 ∧ lane 1 (hex_encoder ieee 0) = 0xC0 ∧
      lane 2 (hex_encoder ieee 0) = 0xC0 ∧ lane 3 (hex_encoder ieee 0) = 0xC0 := by
  decide!

/-- C14. `hex_encoder(9.9)` has lanes 0, 1 and 2 equal to `0x90`, the pattern
of 9, and lane 3 equal to `0xC0`, the pattern of 0: the word `0xC0909090`.
Lane 0 is a digit, not the sentinel.  This holds for the `float` 9.9 under
IEEE arithmetic (the product with 10 rounds to 99) and for 9.9 in exact
arithmetic. -/
theorem hex_encoder_nine_point_nine :
    hex_encoder ieee (ieee.single (99 / 10)) = 0xC0909090 ∧
      hex_encoder exactArith (99 / 10) = 0xC0909090 ∧
      hex_encoder ieee (ieee.single (99 / 10))
        = format_hex 9 + format_hex 9 * 2 ^ 8 + format_hex 9 * 2 ^ 16 + format_hex 0 * 2 ^ 24 ∧
      lane 0 (hex_encoder ieee (ieee.single (99 / 10))) = 0x90 ∧
      lane 1 (hex_encoder ieee (ieee.single (99 / 10))) = 0x90 ∧
      lane 2 (hex_encoder ieee (ieee.single (99 / 10))) = 0x90 ∧
      lane 3 (hex_encoder ieee (ieee.single (99 / 10))) = 0xC0 ∧
      ssd0 (ieee.single (99 / 10)) = 9 := by
  decide!

/-- C15. `hex_encoder(12.3)` has millimetres = 123 and yields lane 0 = the
overflow sentinel (digit 191, pattern `0xBF`), lane 1 = `0xB0` (3), lane 2 =
`0xA4` (2) and lane 3 = `0xF9` (1), for the `float` 12.3 under IEEE arithmetic
and for 12.3 in exact arithmetic. -/
theorem hex_encoder_twelve_point_three :
    mmDistance ieee (ieee.single (123 / 10)) = 123 ∧ mmDistance exactArith (123 / 10) = 123 ∧
      ssd0 (ieee.single (123 / 10)) = 191 ∧
      lane 0 (hex_encoder ieee (ieee.single (123 / 10))) = 0xBF ∧
      lane 1 (hex_encoder ieee (ieee.single (123 / 10))) = 0xB0 ∧
      lane 2 (hex_encoder ieee (ieee.single (123 / 10))) = 0xA4 ∧
      lane 3 (hex_encoder ieee (ieee.single (123 / 10))) = 0xF9 ∧
      format_hex 3 = 0xB0 ∧ format_hex 2 = 0xA4 ∧ format_hex 1 = 0xF9 ∧
      hex_encoder exactArith (123 / 10) = hex_encoder ieee (ieee.single (123 / 10)) := by
  decide!

/-- Counterexample to C18 as stated: the `float` 3000000000.0 is at least 10,
but neither cast yields an `int`; both give `INT_MIN`, the lane-0 digit is -8
and the lane-2 digit -4, the word is `0xFFFFFFFF`, and lane 0 is the blank
pattern, equal to lane 2. -/
theorem hex_encoder_lane2_overflow :
    (10 : ℚ) ≤ 3000000000 ∧ ieee.single 3000000000 = 3000000000 ∧
      ssd0 3000000000 = -8 ∧ ssd2 ieee 3000000000 = -4 ∧
      hex_encoder ieee 3000000000 = 0xFFFFFFFF ∧
      lane 0 (hex_encoder ieee 3000000000) ≠ 0xBF ∧
      lane 0 (hex_encoder ieee 3000000000) = lane 2 (hex_encoder ieee 3000000000) ∧
      lane 0 (hex_encoder exactArith 3000000000)
        = lane 2 (hex_encoder exactArith 3000000000) := by
  decide!

/-- C18, amended. In exact arithmetic, for every distance `d` with
`0 ≤ d < 10` the lane-0 digit `⌊d⌋ mod 10` equals the lane-2 digit
`(⌊d * 10⌋ / 10) mod 10`, so lanes 0 and 2 of `hex_encoder d` hold the same
pattern; and for every `d` with `10 ≤ d < 2 ^ 31` lane 0 is `0xBF` and
differs from lane 2, whatever the rounding.  Lanes 0 and 2 also agree under
IEEE arithmetic for each `float` nearest to a tenth `n / 10` below 10, the
distances `get_distance` returns. -/
theorem hex_encoder_lane2_vs_lane0 (d : ℚ) (h0 : 0 ≤ d) :
    (d < 10 →
        ssd0 d = ⌊d⌋ % 10 ∧ ssd2 exactArith d = ⌊d * 10⌋ / 10 % 10 ∧
          ssd0 d = ssd2 exactArith d ∧
          lane 0 (hex_encoder exactArith d) = lane 2 (hex_encoder exactArith d)) ∧
      (10 ≤ d → d < 2 ^ 31 → ∀ F : FloatArith,
        lane 0 (hex_encoder F d) = 0xBF ∧
          lane 0 (hex_encoder F d) ≠ lane 2 (hex_encoder F d)) ∧
      (∀ n : ℕ, n < 100 →
        lane 0 (hex_encoder ieee (ieee.single ((n : ℚ) / 10)))
          = lane 2 (hex_encoder ieee (ieee.single ((n : ℚ) / 10)))) := by
  have hf0 : (0 : ℤ) ≤ ⌊d⌋ := Int.floor_nonneg.mpr h0
  obtain ⟨l0, -, l2, -⟩ := lane_pack (ssd0 d) (ssd1 exactArith d) (ssd2 exactArith d)
    (ssd3 exactArith d)
  refine ⟨?_, ?_, hex_encoder_ieee_tenths_lanes⟩
  · intro h10
    have hf9 : ⌊d⌋ < 10 := Int.floor_lt.mpr (by push_cast; linarith)
    have hmlt : d * 10 < 2147483648 := by linarith
    have hs0 : ssd0 d = ⌊d⌋ % 10 := by
      rw [ssd0_of_lt_ten h0 h10]
      omega
    have hs2 : ssd2 exactArith d = ⌊d * 10⌋ / 10 % 10 := by
      have hm : 0 ≤ mmDistance exactArith d :=
        mmDistance_nonneg exactArith_signPreserving h0 hmlt
      unfold ssd2
      rw [(digits_of_nonneg hm).2.1, mmDistance_exact h0 hmlt]
    have heq : ssd0 d = ssd2 exactArith d := by
      rw [hs0, hs2, floor_mul_ten_div]
    refine ⟨hs0, hs2, heq, ?_⟩
    show lane 0 (pack _ _ _ _) = lane 2 (pack _ _ _ _)
    rw [l0, l2, heq]
  · intro h10 hlt F
    rw [two_pow_31] at hlt
    obtain ⟨m0, -, m2, -⟩ := lane_pack (ssd0 d) (ssd1 F d) (ssd2 F d) (ssd3 F d)
    have hs : ssd0 d = 191 := ssd0_of_ten_le h10 hlt
    have hbf : lane 0 (hex_encoder F d) = 0xBF := by
      show lane 0 (pack _ _ _ _) = 0xBF
      rw [m0, hs]; decide
    refine ⟨hbf, ?_⟩
    rw [hbf]
    show 0xBF ≠ lane 2 (pack _ _ _ _)
    rw [m2]
    intro hc
    have h191 := format_hex_sentinel_only hc.symm
    unfold ssd2 at h191
    exact tdiv_digit_ne_sentinel _ h191

/-- Witness for C18: 9.9 (lanes 0 and 2 agree), 12.3 (lane 0 is the sentinel,
lane 2 the digit 2) and 214748368.0, where the millimetre value overflows and
lane 2 is blank. -/
theorem hex_encoder_lane2_vs_lane0_witness :
    ((0 : ℚ) ≤ 99 / 10 ∧ (99 / 10 : ℚ) < 10 ∧ (0 : ℚ) ≤ 123 / 10 ∧ (10 : ℚ) ≤ 123 / 10 ∧
        (123 / 10 : ℚ) < 2 ^ 31) ∧
      lane 0 (hex_encoder exactArith (99 / 10)) = lane 2 (hex_encoder exactArith (99 / 10)) ∧
      lane 0 (hex_encoder ieee (123 / 10)) ≠ lane 2 (hex_encoder ieee (123 / 10)) ∧
      lane 0 (hex_encoder ieee 214748368) ≠ lane 2 (hex_encoder ieee 214748368) :=
  ⟨by norm_num,
    ((hex_encoder_lane2_vs_lane0 (99 / 10) (by norm_num)).1 (by norm_num)).2.2.2,
    ((hex_encoder_lane2_vs_lane0 (123 / 10) (by norm_num)).2.1 (by norm_num) (by norm_num)
      ieee).2,
    ((hex_encoder_lane2_vs_lane0 214748368 (by norm_num)).2.1 (by norm_num) (by norm_num)
      ieee).2⟩

/-- Counterexample to C16 as stated: on the echo samples 0, 1, 1, 0 the loop
that follows the trigger pulse ends at the second sample, the first whose
bit 0 is 1, not at the fourth (the first 0 after a 1), and the counter is
restarted before the samples 1, 0 are read; on the samples 1, 0 it ends at
the very first sample, before any sample has read 0. -/
theorem echo_wait_ends_on_high :
    do_while (fun input => input % 2 = 0) [0, 1, 1, 0] = some ([0, 1], [1, 0]) ∧
      do_while (fun input => input % 2 = 0) [0, 1, 1, 0] ≠ some ([0, 1, 1, 0], []) ∧
      do_while (fun input => input % 2 = 0) [1, 0] = some ([1], [0]) ∧
      get_distance ieee [600, 14700] [0, 1, 1, 0]
        = some ([Access.clearHeaderOuts, Access.usleep 50000, Access.setHeaderOuts,
            Access.alt_timestamp_start, Access.alt_timestamp 600, Access.clearHeaderOuts,
            Access.headerInputs 0, Access.headerInputs 1, Access.alt_timestamp_start,
            Access.headerInputs 1, Access.headerInputs 0, Access.alt_timestamp 14700], 5) := by
  decide!

/-- C16, amended. The wait that follows the trigger pulse polls the echo
input and ends at the first sample whose bit 0 is 1 (it repeats while the bit
reads 0, and has not ended while every sample read 0); the elapsed-cycle
counter is restarted right after that sample.  The next loop ends at the
first later sample whose bit 0 is 0, and the counter is read right after
it.  Every run of `get_distance` that returns has this shape, and on inputs
of this shape `get_distance` returns. -/
theorem echo_wait_loop (echo : List ℕ) :
    (do_while (fun input => input % 2 = 0) echo = none ↔ ∀ v ∈ echo, v % 2 = 0) ∧
      (∀ pre x rest, echo = pre ++ x :: rest → (∀ v ∈ pre, v % 2 = 0) → x % 2 = 1 →
        do_while (fun input => input % 2 = 0) echo = some (pre ++ [x], rest)) ∧
      (∀ F timer tr d, get_distance F timer echo = some (tr, d) →
        ∃ (pulse pre : List ℕ) (x : ℕ) (high : List ℕ) (y : ℕ) (rest : List ℕ) (cycles : ℕ),
          echo = pre ++ x :: (high ++ y :: rest) ∧
          (∀ v ∈ pre, v % 2 = 0) ∧ x % 2 = 1 ∧ (∀ v ∈ high, v % 2 = 1) ∧ y % 2 = 0 ∧
          tr = [Access.clearHeaderOuts, Access.usleep 50000, Access.setHeaderOuts,
                  Access.alt_timestamp_start]
                ++ pulse.map Access.alt_timestamp ++ [Access.clearHeaderOuts]
                ++ pre.map Access.headerInputs
                ++ [Access.headerInputs x, Access.alt_timestamp_start]
                ++ high.map Access.headerInputs
                ++ [Access.headerInputs y, Access.alt_timestamp cycles] ∧
          d = get_distance_convert F cycles) ∧
      (∀ (F : FloatArith) (pulse : List ℕ) (t cycles : ℕ) (more pre : List ℕ) (x : ℕ)
          (high : List ℕ) (y : ℕ) (rest : List ℕ),
        (∀ v ∈ pulse, v < 501) → 501 ≤ t → echo = pre ++ x :: (high ++ y :: rest) →
        (∀ v ∈ pre, v % 2 = 0) → x % 2 = 1 → (∀ v ∈ high, v % 2 = 1) → y % 2 = 0 →
        get_distance F (pulse ++ t :: cycles :: more) echo
          = some ([Access.clearHeaderOuts, Access.usleep 50000, Access.setHeaderOuts,
                  Access.alt_timestamp_start]
                ++ (pulse ++ [t]).map Access.alt_timestamp ++ [Access.clearHeaderOuts]
                ++ (pre ++ [x]).map Access.headerInputs ++ [Access.alt_timestamp_start]
                ++ (high ++ [y]).map Access.headerInputs ++ [Access.alt_timestamp cycles],
              get_distance_convert F cycles)) := by
  refine ⟨?_, ?_, ?_, ?_⟩
  · rw [do_while_eq_none_iff]
    simp
  · intro pre x rest he hpre hx
    rw [he]
    exact do_while_append _ pre x rest (fun v hv => by simpa using hpre v hv)
      (by simp; omega)
  rotate_left
  · intro F pulse t cycles more pre x high y rest hp ht he hpre hx hhigh hy
    rw [he]
    exact get_distance_of_shape F pulse t cycles more pre x high y rest hp ht hpre hx hhigh hy
  · intro F timer tr d h
    obtain ⟨pulse, cycles, timer2, wait, echo1, high, echo2, -, h2, h3, htr, hd⟩ :=
      get_distance_some F timer echo tr d h
    obtain ⟨pre, x, e1, e2, e3, e4⟩ := do_while_some _ _ _ _ h2
    obtain ⟨hi, y, f1, f2, f3, f4⟩ := do_while_some _ _ _ _ h3
    refine ⟨pulse, pre, x, hi, y, echo2, cycles, by rw [e2, f2],
      fun v hv => by simpa using e3 v hv, ?_, fun v hv => by simpa using f3 v hv, ?_, ?_, hd⟩
    · have : ¬ x % 2 = 0 := by simpa using e4
      omega
    · have : ¬ y % 2 = 1 := by simpa using f4
      omega
    · rw [htr, e1, f1]
      simp [List.map_append, List.append_assoc]

/-- Witness for C16: the samples 0, 0, 1, 1, 0. -/
theorem echo_wait_loop_witness :
    do_while (fun input => input % 2 = 0) [0, 0, 1, 1, 0] = some ([0, 0] ++ [1], [1, 0]) :=
  (echo_wait_loop [0, 0, 1, 1, 0]).2.1 [0, 0] 1 [1, 0] rfl (by decide) (by decide)

/-- C17. The pulse-width loop ends at the first counter reading that is at
least 501 and at no earlier reading (it has not ended while every reading is
below 501), and in every run of `get_distance` the trigger output, once set,
is cleared right after that reading: between the set and the clear lie only
the start of the counter, readings below 501 and one reading of at least
501.  On readings and echo samples that end all three loops `get_distance`
returns, with exactly these accesses. -/
theorem trigger_pulse_loop (timer : List ℕ) :
    (do_while (fun cycles => cycles < 501) timer = none ↔ ∀ v ∈ timer, v < 501) ∧
      (∀ pre t rest, timer = pre ++ t :: rest → (∀ v ∈ pre, v < 501) → 501 ≤ t →
        do_while (fun cycles => cycles < 501) timer = some (pre ++ [t], rest)) ∧
      (∀ F echo tr d, get_distance F timer echo = some (tr, d) →
        ∃ (pre : List ℕ) (t : ℕ) (rest : List ℕ) (post : List Access),
          timer = pre ++ t :: rest ∧ (∀ v ∈ pre, v < 501) ∧ 501 ≤ t ∧
          tr = [Access.clearHeaderOuts, Access.usleep 50000, Access.setHeaderOuts,
                  Access.alt_timestamp_start]
                ++ pre.map Access.alt_timestamp
                ++ [Access.alt_timestamp t, Access.clearHeaderOuts] ++ post ∧
          Access.setHeaderOuts ∉ post) ∧
      (∀ (F : FloatArith) (pre : List ℕ) (t cycles : ℕ) (more zs : List ℕ) (x : ℕ)
          (high : List ℕ) (y : ℕ) (rest : List ℕ),
        timer = pre ++ t :: cycles :: more → (∀ v ∈ pre, v < 501) → 501 ≤ t →
        (∀ v ∈ zs, v % 2 = 0) → x % 2 = 1 → (∀ v ∈ high, v % 2 = 1) → y % 2 = 0 →
        get_distance F timer (zs ++ x :: (high ++ y :: rest))
          = some ([Access.clearHeaderOuts, Access.usleep 50000, Access.setHeaderOuts,
                  Access.alt_timestamp_start]
                ++ (pre ++ [t]).map Access.alt_timestamp ++ [Access.clearHeaderOuts]
                ++ (zs ++ [x]).map Access.headerInputs ++ [Access.alt_timestamp_start]
                ++ (high ++ [y]).map Access.headerInputs ++ [Access.alt_timestamp cycles],
              get_distance_convert F cycles)) := by
  refine ⟨?_, ?_, ?_, ?_⟩
  · rw [do_while_eq_none_iff]
    simp
  · intro pre t rest he hpre ht
    rw [he]
    exact do_while_append _ pre t rest (fun v hv => by simpa using hpre v hv)
      (by simp; omega)
  rotate_left
  · intro F pre t cycles more zs x high y rest he hpre ht hzs hx hhigh hy
    rw [he]
    exact get_distance_of_shape F pre t cycles more zs x high y rest hpre ht hzs hx hhigh hy
  · intro F echo tr d h
    obtain ⟨pulse, cycles, timer2, wait, echo1, high, echo2, h1, -, -, htr, -⟩ :=
      get_distance_some F timer echo tr d h
    obtain ⟨pre, t, e1, e2, e3, e4⟩ := do_while_some _ _ _ _ h1
    refine ⟨pre, t, cycles :: timer2,
      wait.map Access.headerInputs ++ [Access.alt_timestamp_start]
        ++ high.map Access.headerInputs ++ [Access.alt_timestamp cycles],
      e2, fun v hv => by simpa using e3 v hv, by simpa using e4, ?_, ?_⟩
    · rw [htr, e1]
      simp [List.map_append, List.append_assoc]
    · simp

/-- Witness for C17: the readings 3, 500, 501, 14700 and the echo samples
0, 1, 0. -/
theorem trigger_pulse_loop_witness :
    do_while (fun cycles => cycles < 501) [3, 500, 501, 14700] = some ([3, 500] ++ [501], [14700]) ∧
      get_distance ieee [3, 500, 501, 14700] [0, 1, 0]
        = some ([Access.clearHeaderOuts, Access.usleep 50000, Access.setHeaderOuts,
            Access.alt_timestamp_start, Access.alt_timestamp 3, Access.alt_timestamp 500,
            Access.alt_timestamp 501, Access.clearHeaderOuts, Access.headerInputs 0,
            Access.headerInputs 1, Access.alt_timestamp_start, Access.headerInputs 0,
            Access.alt_timestamp 14700], 5) :=
  ⟨(trigger_pulse_loop [3, 500, 501, 14700]).2.1 [3, 500] 501 [14700] rfl (by decide)
    (by decide), by decide!⟩

/-! ## Properties of the composition -/

/-- Counterexample to C20 as stated: under IEEE arithmetic the count 121514
has `r = round (c * 0.0034029) = 413`, but the distance returned is the
`float` nearest to 41.4, the millimetre value in `hex_encoder` is 414 and lane
1 holds the pattern of 4, not of 3.  At the count 3105000588 `roundf` delivers
10566007, the `float` nearest to 1056600.7 is 1056600.75, and the millimetre
value computed from it is 10566008: a tenth is lost. -/
theorem convert_then_encode_ieee_off :
    round ((121514 : ℚ) * (34029 / 100000000) * 10) = 413 ∧
      mmDistance ieee (get_distance_convert ieee 121514) = 414 ∧
      lane 1 (hex_encoder ieee (get_distance_convert ieee 121514)) = format_hex 4 ∧
      format_hex 4 ≠ format_hex (413 % 10) ∧
      ¬ ShowsTenths ieee (get_distance_convert ieee 121514)
          (round ((121514 : ℚ) * (34029 / 100000000) * 10)) ∧
      get_distance_convert ieee 3105000588 = ieee.single (10566007 / 10) ∧
      get_distance_convert ieee 3105000588 = 4226403 / 4 ∧
      mmDistance ieee (get_distance_convert ieee 3105000588) = 10566008 := by
  have h1 : round ((121514 : ℚ) * (34029 / 100000000) * 10) = 413 := by decide!
  have h2 : mmDistance ieee (get_distance_convert ieee 121514) = 414 := by decide!
  refine ⟨h1, h2, by decide!, by decide, ?_, by decide!, by decide!, by decide!⟩
  intro hs
  have := hs.1
  rw [h1, h2] at this
  omega

/-- C20, amended. With `n` the integer that `roundf` delivers in
`get_distance` (in exact arithmetic `n = r = round (c * 0.0034029)`, halves
away from zero, and the distance is `r / 10`; in IEEE arithmetic the distance
is the `float` nearest to `n / 10` and `|n - c * 0.0034029| ≤ 1/2 +
c * 0.0034029 / 2 ^ 23`), the millimetre value computed inside `hex_encoder`
for the returned distance is exactly `n`: lanes 1, 2, 3 are the patterns of
`n mod 10`, `(n / 10) mod 10`, `(n / 100) mod 10`, and lane 0 is the pattern
of `n / 10` when `n < 100` and the sentinel pattern otherwise.  In exact
arithmetic this holds whenever `r` is an `int`, which it is for every 32-bit
count, in IEEE arithmetic for every count below `2 ^ 31`. -/
theorem convert_then_encode :
    (∀ c : ℕ,
        get_distance_convert exactArith c
          = (round ((c : ℚ) * (34029 / 100000000) * 10) : ℚ) / 10 ∧
        (round ((c : ℚ) * (34029 / 100000000) * 10) < 2 ^ 31 →
          ShowsTenths exactArith (get_distance_convert exactArith c)
            (round ((c : ℚ) * (34029 / 100000000) * 10))) ∧
        (c < 2 ^ 32 → round ((c : ℚ) * (34029 / 100000000) * 10) < 2 ^ 31)) ∧
      (∀ c : ℕ, c < 2 ^ 31 → ∃ n : ℕ,
        get_distance_convert ieee c = ieee.single ((n : ℚ) / 10) ∧
        |(n : ℚ) - (c : ℚ) * (34029 / 100000000) * 10|
          ≤ 1 / 2 + (c : ℚ) * (34029 / 100000000) * 10 / 2 ^ 23 ∧
        ShowsTenths ieee (get_distance_convert ieee c) n) := by
  constructor
  · intro c
    obtain ⟨he, hr⟩ := get_distance_convert_exact_eq c
    refine ⟨he, fun hlt => ?_, fun hc => ?_⟩
    · rw [he]
      exact showsTenths_exact _ hr (by norm_num at hlt; exact hlt)
    · have hcq : (c : ℚ) < 4294967296 := by exact_mod_cast hc
      have hc0 : (0 : ℚ) ≤ c := by positivity
      rw [round_eq]
      have : ⌊(c : ℚ) * (34029 / 100000000) * 10 + 1 / 2⌋ < 2147483648 :=
        Int.floor_lt.mpr (by push_cast; linarith)
      norm_num
      exact this
  · intro c hc
    obtain ⟨z, hz1, hz2⟩ := get_distance_convert_ieee_near c
    have hcq : (c : ℚ) ≤ 2 ^ 31 := by exact_mod_cast hc.le
    have hc0 : (0 : ℚ) ≤ c := by positivity
    obtain ⟨l, u⟩ := abs_le.mp hz2
    have hz0 : 0 ≤ z := by
      have : (-1 : ℚ) < z := by linarith
      have : (-1 : ℤ) < z := by exact_mod_cast this
      omega
    have hzlt : z < 2 ^ 23 := by
      have : (z : ℚ) < ((2 ^ 23 : ℤ) : ℚ) := by push_cast; linarith
      exact_mod_cast this
    obtain ⟨n, rfl⟩ := Int.eq_ofNat_of_zero_le hz0
    have hn : n < 2 ^ 23 := by exact_mod_cast hzlt
    simp only [Int.cast_natCast] at hz1 hz2
    refine ⟨n, hz1, hz2, ?_⟩
    rw [hz1]
    exact showsTenths_ieee n hn

/-- Witness for C20: the count 121514 under IEEE arithmetic, and the largest
32-bit count in exact arithmetic. -/
theorem convert_then_encode_witness :
    ((121514 : ℕ) < 2 ^ 31 ∧ ∃ n : ℕ,
      get_distance_convert ieee 121514 = ieee.single ((n : ℚ) / 10) ∧
      |(n : ℚ) - ((121514 : ℕ) : ℚ) * (34029 / 100000000) * 10|
        ≤ 1 / 2 + ((121514 : ℕ) : ℚ) * (34029 / 100000000) * 10 / 2 ^ 23 ∧
      ShowsTenths ieee (get_distance_convert ieee 121514) n) ∧
      ((4294967295 : ℕ) < 2 ^ 32 ∧
        ShowsTenths exactArith (get_distance_convert exactArith 4294967295)
          (round (((4294967295 : ℕ) : ℚ) * (34029 / 100000000) * 10))) :=
  ⟨⟨by norm_num, convert_then_encode.2 121514 (by norm_num)⟩, by norm_num,
    (convert_then_encode.1 4294967295).2.1
      ((convert_then_encode.1 4294967295).2.2 (by norm_num))⟩

end DistanceDevice
